import Mathlib

/-!
Verification development for the TXT_2_CSV statement scanner
(`src/Untitled-1.py`).  The Python source is shallowly embedded over
`List Char`: each regex is hand-translated into an equivalent
deterministic matcher (the backtracking behaviour of CPython's `re`
engine was derived case by case and is documented at each definition),
`Decimal` is embedded as an exact integer-mantissa/scale pair, and the
`parse_txt` scanning loop is embedded as a fueled step function over an
explicit scanner state, returning `Except` to model uncaught Python
exceptions (`decimal.InvalidOperation`).
-/

set_option maxRecDepth 10000

namespace TxtCsv

/-- Python whitespace, as matched by `str.strip()` / `str.split()` and by
`\s` in the `re` module (Unicode mode): the six ASCII whitespace
characters plus the Unicode whitespace code points. -/
def isPyWS (c : Char) : Bool :=
  c == ' ' || c == '\t' || c == '\n' || c == '\r' || c == '\x0b' || c == '\x0c' ||
  c == '\x1c' || c == '\x1d' || c == '\x1e' || c == '\x1f' || c == '\x85' ||
  c == '\u00A0' || c == '\u1680' || ('\u2000' ≤ c && c ≤ '\u200A') ||
  c == '\u2028' || c == '\u2029' || c == '\u202F' || c == '\u205F' || c == '\u3000'

/-- ASCII decimal digit, as matched by `\d` on the statement's ASCII
amount/date tokens (non-ASCII Unicode digits are not modelled). -/
def isDig (c : Char) : Bool := '0' ≤ c && c ≤ '9'

/-- Character class `[\d.,]` used by the amount sub-patterns. -/
def isAmtC (c : Char) : Bool := isDig c || c == '.' || c == ','

/-- Character class `[-\d.,]` used by `RE_DOM`'s amount group. -/
def isAmtNegC (c : Char) : Bool := isAmtC c || c == '-'

/-- Character class `[A-Z]` (currency code, `RE_FX_L2_TOL`). -/
def isUpperAZ (c : Char) : Bool := 'A' ≤ c && c ≤ 'Z'

/-- Character class `[A-Z]` under `re.I` (`RE_FX_L2_TOL_ANY`): also
matches `a`-`z`. -/
def isLetterAZ (c : Char) : Bool := isUpperAZ c || ('a' ≤ c && c ≤ 'z')

/-- `LEAD_SYM = ">@§$Z)_•*®«» "` from the source: the set of leading
decorative symbols stripped by `clean`. -/
def LEAD_SYM : List Char := ">@§$Z)_•*®«» ".data

/-- Python `str.upper()` restricted to ASCII plus the accented letters
that occur in the source's keyword tables (full Unicode case mapping is
not modelled; no keyword needs more). -/
def upChar (c : Char) : Char :=
  if c == 'á' then 'Á' else if c == 'â' then 'Â' else if c == 'ã' then 'Ã' else
  if c == 'à' then 'À' else if c == 'é' then 'É' else if c == 'ê' then 'Ê' else
  if c == 'í' then 'Í' else if c == 'ó' then 'Ó' else if c == 'ô' then 'Ô' else
  if c == 'õ' then 'Õ' else if c == 'ú' then 'Ú' else if c == 'ü' then 'Ü' else
  if c == 'ç' then 'Ç' else c.toUpper

/-- Python `str.lower()` restricted likewise (used for `Counter` keys
`stats[cat.lower()]`). -/
def lowChar (c : Char) : Char :=
  if c == 'Á' then 'á' else if c == 'Â' then 'â' else if c == 'Ã' then 'ã' else
  if c == 'À' then 'à' else if c == 'É' then 'é' else if c == 'Ê' then 'ê' else
  if c == 'Í' then 'í' else if c == 'Ó' then 'ó' else if c == 'Ô' then 'ô' else
  if c == 'Õ' then 'õ' else if c == 'Ú' then 'ú' else if c == 'Ü' then 'ü' else
  if c == 'Ç' then 'ç' else c.toLower

def pyUpper (l : List Char) : List Char := l.map upChar

def pyLower (l : List Char) : List Char := l.map lowChar

/-- Python's `kw in s` substring test. -/
def containsSub (pat : List Char) : List Char → Bool
  | [] => pat.isEmpty
  | c :: r => pat.isPrefixOf (c :: r) || containsSub pat r

/-- Case-insensitive literal consumption (a literal inside a pattern
compiled with `re.I`): consumes `pat` from the front of `l`, comparing
via `upChar`. -/
def consumeCI : List Char → List Char → Option (List Char)
  | [], l => some l
  | _ :: _, [] => none
  | p :: ps, c :: cs => if upChar c == upChar p then consumeCI ps cs else none

/-- Case-sensitive literal consumption. -/
def consumeLit : List Char → List Char → Option (List Char)
  | [], l => some l
  | _ :: _, [] => none
  | p :: ps, c :: cs => if c == p then consumeLit ps cs else none

/-- `str.lstrip(LEAD_SYM)`. -/
def lstripLead : List Char → List Char
  | [] => []
  | c :: r => if LEAD_SYM.contains c then lstripLead r else c :: r

/-- `raw.replace("_", " ")`. -/
def replUnd (l : List Char) : List Char := l.map fun c => if c == '_' then ' ' else c

/-- Mode of the whitespace-run collapser: outside a run, after one
whitespace character `c` (not yet emitted), or inside an already
collapsed run. -/
inductive WSMode
  | start
  | one (c : Char)
  | many

/-- `re.sub(r"\s{2,}", " ", s)`: each maximal run of two or more
whitespace characters becomes a single space; a lone whitespace
character is kept as is. -/
def collapseGo : WSMode → List Char → List Char
  | .start, [] => []
  | .one c, [] => [c]
  | .many, [] => []
  | .start, x :: r => if isPyWS x then collapseGo (.one x) r else x :: collapseGo .start r
  | .one c, x :: r =>
      if isPyWS x then ' ' :: collapseGo .many r else c :: x :: collapseGo .start r
  | .many, x :: r => if isPyWS x then collapseGo .many r else x :: collapseGo .start r

def collapseWS (l : List Char) : List Char := collapseGo .start l

/-- `str.strip()`: drop leading and trailing Python whitespace. -/
def stripBoth (l : List Char) : List Char :=
  ((l.dropWhile isPyWS).reverse.dropWhile isPyWS).reverse

/-- `clean(raw)` from the source:
`re.sub(r"\s{2,}", " ", raw.lstrip(LEAD_SYM).replace("_", " ")).strip()`. -/
def clean (raw : List Char) : List Char :=
  stripBoth (collapseWS (replUnd (lstripLead raw)))

/-- `str.split()` (split on whitespace runs, dropping empty pieces);
`acc` is the current word, reversed. -/
def splitGo (acc : List Char) : List Char → List (List Char)
  | [] => if acc.isEmpty then [] else [acc.reverse]
  | c :: r =>
      if isPyWS c then
        if acc.isEmpty then splitGo [] r else acc.reverse :: splitGo [] r
      else splitGo (c :: acc) r

def pySplit (l : List Char) : List (List Char) := splitGo [] l

/-- `" ".join(parts)`. -/
def joinSpace (ps : List (List Char)) : List Char := List.intercalate [' '] ps

/-- Drop a maximal trailing run of Python whitespace. -/
def dropEndWS (l : List Char) : List Char := (l.reverse.dropWhile isPyWS).reverse

/-- Python `Decimal`, embedded exactly: value is `mant / 10 ^ scale`.
`scale` is the number of digits after the decimal point, so trailing
zeros are preserved (`Decimal("12.00")` is `⟨1200, 2⟩`).  The sign of a
zero (`Decimal("-0.00")`) is not representable; no claim depends on it. -/
structure Dec where
  mant : Int
  scale : Nat
deriving DecidableEq, Repr

/-- Exact value comparison `a ≤ b` (Python `Decimal` comparison is by
value, independent of scale). -/
def Dec.le (a b : Dec) : Bool := a.mant * (10 : Int) ^ b.scale ≤ b.mant * (10 : Int) ^ a.scale

/-- Exact value equality (Python `Decimal.__eq__`, also used for the
tuple-equality of the FX dedup keys in the `seen_fx` set). -/
def Dec.eqv (a b : Dec) : Bool := a.mant * (10 : Int) ^ b.scale == b.mant * (10 : Int) ^ a.scale

/-- `abs(a)`. -/
def Dec.absD (a : Dec) : Dec := ⟨|a.mant|, a.scale⟩

/-- Numeric value of a digit character. -/
def digVal (c : Char) : Nat := c.toNat - '0'.toNat

/-- `int(s)` on a string of ASCII digits. -/
def digitsToNat (l : List Char) : Nat := l.foldl (fun n c => 10 * n + digVal c) 0

/-- Split a cleaned amount string at its first `'.'`. -/
def splitDot : List Char → List Char × Option (List Char)
  | [] => ([], none)
  | c :: r =>
      if c == '.' then ([], some r)
      else
        let (a, b) := splitDot r
        (c :: a, b)

/-- `Decimal(s)` on a string over the alphabet digits / `'.'` / `'-'`
(the only characters `decomma`'s cleaning can leave): accepts an
optional single leading minus, then digits with at most one point and at
least one digit in total; anything else raises `InvalidOperation`. -/
def parseDecStr (l : List Char) : Option Dec :=
  match l with
  | '-' :: r => (parseUnsignedDec r).map fun d => ⟨-d.mant, d.scale⟩
  | _ => parseUnsignedDec l
where
  parseUnsignedDec (l : List Char) : Option Dec :=
    let (a, b) := splitDot l
    if a.all isDig then
      match b with
      | none => if a.isEmpty then none else some ⟨(digitsToNat a : Int), 0⟩
      | some b =>
          if b.all isDig && !(a.isEmpty && b.isEmpty) && !b.contains '.' then
            some ⟨(digitsToNat (a ++ b) : Int), b.length⟩
          else none
    else none

/-- The cleaning step of `decomma`:
`re.sub(r"[^\d,\-]", "", x.replace(' ', '')).replace('.', '').replace(',', '.')`.
The `re.sub` keeps only digits, commas and minus signs (dots and spaces
are discarded by it, making the prior `.replace(' ', '')` and the later
`.replace('.', '')` no-ops), then commas become decimal points. -/
def cleanAmt (x : List Char) : List Char :=
  (x.filter fun c => isDig c || c == ',' || c == '-').map
    fun c => if c == ',' then '.' else c

/-- `decomma(x)` from the source: `Decimal(<cleaned x>)`.  A failing
`Decimal(...)` raises `decimal.InvalidOperation`, modelled as
`Except.error ()`. -/
def decomma (x : List Char) : Except Unit Dec :=
  match parseDecStr (cleanAmt x) with
  | some d => .ok d
  | none => .error ()

/-- Render `n` in decimal, zero-padded to width `w` (Python `f"{n:0w}"`;
no truncation). -/
def padNum (w n : Nat) : List Char :=
  let ds := Nat.toDigits 10 n
  List.replicate (w - ds.length) '0' ++ ds

/-- `str(Decimal)` for the hash message: sign, integer digits, and a
point when `scale > 0`.  (Exponent notation never arises from
`decomma`'s outputs.) -/
def renderDec (d : Dec) : List Char :=
  let n := d.mant.natAbs
  let ds := padNum (d.scale + 1) n
  let body :=
    if d.scale == 0 then ds
    else ds.take (ds.length - d.scale) ++ '.' :: ds.drop (ds.length - d.scale)
  if d.mant < 0 then '-' :: body else body

/-- `RE_DATE.match(s)` for
`RE_DATE = (?P<d>\d{1,3})/(?P<m>\d{1,2})(?:/(?P<y>\d{4}))?`, returning
the numeric day, month and optional year groups.  Derived deterministic
form of the backtracking match (verified against CPython `re`):
the leading digit run must have length 1-3 and be followed by `/`
(a longer run can never backtrack into a match, because every shorter
prefix is followed by a digit, not `/`); the month is the first
`min 2` digits of the following run; the year group participates only
when the month run has length at most 2 and is followed by `/` and at
least four digits, of which the first four are taken (`re.match` is a
prefix match, trailing characters are ignored). -/
def reDateMatch (l : List Char) : Option (Nat × Nat × Option Nat) :=
  let r1 := l.takeWhile isDig
  if r1.length < 1 || 3 < r1.length then none
  else
    match l.drop r1.length with
    | '/' :: rest2 =>
        let r2 := rest2.takeWhile isDig
        if r2.isEmpty then none
        else
          let m := digitsToNat (r2.take 2)
          let d := digitsToNat r1
          if r2.length ≤ 2 then
            match rest2.drop r2.length with
            | '/' :: rest4 =>
                let r3 := rest4.takeWhile isDig
                if 4 ≤ r3.length then some (d, m, some (digitsToNat (r3.take 4)))
                else some (d, m, none)
            | _ => some (d, m, none)
          else some (d, m, none)
    | _ => none

/-- `norm_date(date, ry, rm)` from the source.  The month group of
`RE_DATE` is mandatory, so the `if not mth` fallback to the reference
month can never fire; the reference year substitutes only a missing
year group. -/
def norm_date (date : List Char) (ry rm : Nat) : List Char :=
  if date.isEmpty then []
  else
    match reDateMatch date with
    | none => date
    | some (d, mth, y) =>
        padNum 4 (y.getD ry) ++ '-' :: (padNum 2 mth ++ '-' :: padNum 2 d)

/-- The ordered keyword-to-category `mapping` table inside `classify`. -/
def catMapping : List (List Char × List Char) :=
  [("ACELERADOR".data, "SERVIÇOS".data),
   ("PONTOS".data, "SERVIÇOS".data),
   ("ANUIDADE".data, "SERVIÇOS".data),
   ("SEGURO".data, "SERVIÇOS".data),
   ("TARIFA".data, "SERVIÇOS".data),
   ("PRODUTO".data, "SERVIÇOS".data),
   ("SERVIÇO".data, "SERVIÇOS".data),
   ("SUPERMERC".data, "SUPERMERCADO".data),
   ("FARMAC".data, "FARMÁCIA".data),
   ("DROG".data, "FARMÁCIA".data),
   ("PANVEL".data, "FARMÁCIA".data),
   ("RESTAUR".data, "RESTAURANTE".data),
   ("PIZZ".data, "RESTAURANTE".data),
   ("BAR".data, "RESTAURANTE".data),
   ("CAFÉ".data, "RESTAURANTE".data),
   ("POSTO".data, "POSTO".data),
   ("COMBUST".data, "POSTO".data),
   ("GASOLIN".data, "POSTO".data),
   ("UBER".data, "TRANSPORTE".data),
   ("TAXI".data, "TRANSPORTE".data),
   ("TRANSP".data, "TRANSPORTE".data),
   ("PASSAGEM".data, "TRANSPORTE".data),
   ("AEROPORTO".data, "TURISMO".data),
   ("HOTEL".data, "TURISMO".data),
   ("TUR".data, "TURISMO".data),
   ("ENTRETENIM".data, "TURISMO".data),
   ("ALIMENT".data, "ALIMENTAÇÃO".data),
   ("IFD".data, "ALIMENTAÇÃO".data),
   ("SAUD".data, "SAÚDE".data),
   ("VEIC".data, "VEÍCULOS".data),
   ("VEST".data, "VESTUÁRIO".data),
   ("LOJA".data, "VESTUÁRIO".data),
   ("MAGAZINE".data, "VESTUÁRIO".data),
   ("EDU".data, "EDUCAÇÃO".data),
   ("HOBBY".data, "HOBBY".data),
   ("DIVERS".data, "DIVERSOS".data)]

/-- First table entry whose keyword is a substring of `d`
(`for k, v in mapping: if k in d: return v`). -/
def firstCat (d : List Char) : List (List Char × List Char) → Option (List Char)
  | [] => none
  | (k, v) :: rest => if containsSub k d then some v else firstCat d rest

/-- The body of `classify` after `d = desc.upper()`.  `amt` is a
`Decimal`; `abs(amt) <= Decimal("0.30") and abs(amt) > 0` are exact
value comparisons. -/
def classifyCore (d : List Char) (amt : Dec) : List Char :=
  if containsSub "7117".data d then "PAGAMENTO".data
  else if containsSub "AJUSTE".data d ||
      (amt.absD.le ⟨30, 2⟩ && !(amt.absD.le ⟨0, 0⟩)) then "AJUSTE".data
  else if containsSub "IOF".data d || containsSub "JUROS".data d ||
      containsSub "MULTA".data d then "ENCARGOS".data
  else
    match firstCat d catMapping with
    | some v => v
    | none =>
        if containsSub "EUR".data d || containsSub "USD".data d ||
            containsSub "FX".data d then "FX".data
        else "DIVERSOS".data

/-- `classify(desc, amt)` from the source: `d = desc.upper()` followed
by the ordered rules. -/
def classify (desc : List Char) (amt : Dec) : List Char :=
  classifyCore (pyUpper desc) amt

/-- `RE_FX_L2_TOL` / `RE_FX_L2_TOL_ANY`:
`^(.+?)\s+([\d.,]+)\s+([A-Z]{3})\s+([\d.,]+)$` (the `_ANY` variant is the
same pattern under `re.I`, so its currency class also accepts
lowercase).  Deterministic form of the backtracking match, derived from
the pattern shape and verified against CPython:

* group 4 must be the maximal all-`[\d.,]` suffix run (any shorter
  suffix would put a `[\d.,]` character where the preceding `\s+` needs
  whitespace);
* the gap before it must be all whitespace, the three characters before
  the gap are the currency code, the gap before the code is whitespace,
  group 2 is the maximal `[\d.,]` run before that gap, and another
  whitespace gap precedes it;
* the lazy group 1 is everything before that last gap — except that
  when that would leave group 1 empty, the engine shrinks the gap and
  group 1 becomes the first whitespace character of it (`.` matches any
  character except a newline, so a newline in group 1 kills the match).

`cur` selects the currency-code class, distinguishing `TOL` from
`ANY`. -/
def matchFXL2With (cur : Char → Bool) (t : List Char) :
    Option (List Char × List Char × List Char × List Char) :=
  let r := t.reverse
  let g4r := r.takeWhile isAmtC
  if g4r.isEmpty then none
  else
    let rest1 := r.drop g4r.length
    let w3r := rest1.takeWhile isPyWS
    if w3r.isEmpty then none
    else
      let rest2 := rest1.drop w3r.length
      let curR := rest2.take 3
      if curR.length == 3 && curR.all cur then
        let rest3 := rest2.drop 3
        let w2r := rest3.takeWhile isPyWS
        if w2r.isEmpty then none
        else
          let rest4 := rest3.drop w2r.length
          let g2r := rest4.takeWhile isAmtC
          if g2r.isEmpty then none
          else
            let rest5 := rest4.drop g2r.length
            let w1r := rest5.takeWhile isPyWS
            if w1r.isEmpty then none
            else
              let rest6 := rest5.drop w1r.length
              let g1 :=
                if rest6.isEmpty then
                  match w1r.reverse with
                  | c0 :: _ :: _ => some [c0]
                  | _ => none
                else some rest6.reverse
              match g1 with
              | none => none
              | some g1 =>
                  if g1.contains '\n' then none
                  else some (g1, g2r.reverse, curR.reverse, g4r.reverse)
      else none

/-- `mfx2 = RE_FX_L2_TOL.match(s) or RE_FX_L2_TOL_ANY.match(s)` from the
scanner's FX branch. -/
def matchFXL2 (t : List Char) : Option (List Char × List Char × List Char × List Char) :=
  (matchFXL2With isUpperAZ t).orElse fun _ => matchFXL2With isLetterAZ t

/-- One attempt of `RE_FX_RATE` at the current position:
`D[oó]lar de Convers[aã]o R\$ (?P<fx>[\d.,]+)` (case-sensitive); the
group is the maximal `[\d.,]` run after the literal. -/
def rateAt (l : List Char) : Option (List Char) :=
  match l with
  | 'D' :: c :: rest =>
      if c == 'o' || c == 'ó' then
        match consumeLit "lar de Convers".data rest with
        | some ('a' :: 'o' :: rest2) => rateTail rest2
        | some ('ã' :: 'o' :: rest2) => rateTail rest2
        | _ => none
      else none
  | _ => none
where
  rateTail (rest2 : List Char) : Option (List Char) :=
    match consumeLit " R$ ".data rest2 with
    | some rest3 =>
        let g := rest3.takeWhile isAmtC
        if g.isEmpty then none else some g
    | none => none

/-- `RE_FX_RATE.search(s)`: leftmost position where `rateAt` succeeds. -/
def searchRate : List Char → Option (List Char)
  | [] => none
  | c :: r => (rateAt (c :: r)).orElse fun _ => searchRate r

/-- One attempt of `RE_IOF_LINE` at the current position:
`Repasse de IOF em R\$[\s]*([\d.,]+)` with `re.I`. -/
def iofAt (l : List Char) : Option (List Char) :=
  match consumeCI "Repasse de IOF em R$".data l with
  | some rest =>
      let rest2 := rest.dropWhile isPyWS
      let g := rest2.takeWhile isAmtC
      if g.isEmpty then none else some g
  | none => none

/-- `RE_IOF_LINE.search(s)`: leftmost successful position. -/
def searchIOF : List Char → Option (List Char)
  | [] => none
  | c :: r => (iofAt (c :: r)).orElse fun _ => searchIOF r

/-- The `(?:\.\d{3})*,\d{2}` tail of `RE_BRL`, with the star's greedy
backtracking: consume `.ddd` groups as long as the rest still matches,
otherwise fall back to the `,dd` tail here.  Returns the consumed
characters. -/
def brlTail : List Char → Option (List Char)
  | '.' :: d1 :: d2 :: d3 :: rest =>
      if isDig d1 && isDig d2 && isDig d3 then
        match brlTail rest with
        | some t => some ('.' :: d1 :: d2 :: d3 :: t)
        | none => commaTail ('.' :: d1 :: d2 :: d3 :: rest)
      else commaTail ('.' :: d1 :: d2 :: d3 :: rest)
  | l => commaTail l
where
  commaTail : List Char → Option (List Char)
    | ',' :: d1 :: d2 :: _ => if isDig d1 && isDig d2 then some [',', d1, d2] else none
    | _ => none

/-- The `\d{1,3}(?:\.\d{3})*,\d{2}` core of `RE_BRL` at the current
position, with the leading repeat's backtracking (`k` digits for `k`
from `min 3 (run length)` down to 1). -/
def brlCoreAt (l : List Char) : Option (List Char) :=
  let run := l.takeWhile isDig
  go (min 3 run.length) run l
where
  go : Nat → List Char → List Char → Option (List Char)
    | 0, _, _ => none
    | k + 1, run, l =>
        if k + 1 ≤ run.length then
          match brlTail (l.drop (k + 1)) with
          | some t => some (l.take (k + 1) ++ t)
          | none => go k run l
        else go k run l

/-- One attempt of `RE_BRL = -?\s*\d{1,3}(?:\.\d{3})*,\d{2}` at the
current position.  When the position holds `-`, the optional sign is
taken and `\s*` consumes the following whitespace run; if the core then
fails, dropping the sign cannot help (`\s*` would stall on the `-`). -/
def brlAt (l : List Char) : Option (List Char) :=
  match l with
  | '-' :: rest =>
      let w := rest.takeWhile isPyWS
      match brlCoreAt (rest.drop w.length) with
      | some c => some ('-' :: w ++ c)
      | none => none
  | _ =>
      let w := l.takeWhile isPyWS
      brlCoreAt (l.drop w.length) |>.map fun c => w ++ c

/-- `RE_BRL.search(s)`: leftmost successful position. -/
def searchBRL : List Char → Option (List Char)
  | [] => none
  | c :: r => (brlAt (c :: r)).orElse fun _ => searchBRL r

/-- The date group `(\d{1,3}/\d{1,2}(?:/\d{4})?)` of the payment
patterns, which is always followed by `\s+`: returns the matched token
and the remaining characters.  Derived deterministic form: the day run
must have length 1-3 followed by `/`; the month run must have length
1-2 (a longer run leaves a digit where `\s+` or `/\d{4}` must start,
and shrinking the month leaves a digit too); a `/` after the month
demands exactly four following digits and makes the year part of the
token (five or more digits leave a digit under the following `\s+`,
fewer than four fail the year group and leave `/` under `\s+`). -/
def payDate (l : List Char) : Option (List Char × List Char) :=
  let r1 := l.takeWhile isDig
  if r1.length < 1 || 3 < r1.length then none
  else
    match l.drop r1.length with
    | '/' :: rest2 =>
        let r2 := rest2.takeWhile isDig
        if r2.length < 1 || 2 < r2.length then none
        else
          match rest2.drop r2.length with
          | '/' :: rest4 =>
              let r3 := rest4.takeWhile isDig
              if r3.length == 4 then
                some (r1 ++ '/' :: r2 ++ '/' :: r3, rest4.drop 4)
              else none
          | rest3 => some (r1 ++ '/' :: r2, rest3)
    | _ => none

/-- The amount tail `(-\s*[\d.,]+)\s*$` of `RE_PAY_LINE` at the current
position: a literal `-`, a whitespace run, a nonempty `[\d.,]` run, and
nothing but whitespace to the end.  The group includes the inner
whitespace. -/
def payAmtTailAt (u : List Char) : Option (List Char) :=
  match u with
  | '-' :: rest =>
      let w := rest.takeWhile isPyWS
      let rest2 := rest.drop w.length
      let d := rest2.takeWhile isAmtC
      if d.isEmpty then none
      else if (rest2.drop d.length).all isPyWS then some ('-' :: w ++ d)
      else none
  | _ => none

/-- Scan for the unique position where `payAmtTailAt` succeeds (at most
one position can satisfy it, since the pattern admits no later `-`),
returning the characters before it and the amount group. -/
def findPayAmt : List Char → Option (List Char × List Char)
  | [] => none
  | c :: r =>
      match payAmtTailAt (c :: r) with
      | some g => some ([], g)
      | none => (findPayAmt r).map fun (p, g) => (c :: p, g)

/-- Does `p` decompose as `\s*[-\t ]+` (the separator between `7117` and
the amount in `RE_PAY_LINE`)?  Equivalent deterministic form: the
maximal suffix over `{-, tab, space}` is nonempty and everything before
it is whitespace. -/
def sepOK (p : List Char) : Bool :=
  let br := p.reverse.takeWhile fun c => c == '-' || c == '\t' || c == ' '
  !br.isEmpty && (p.reverse.drop br.length).all isPyWS

/-- The `7117\s*[-\t ]+(-\s*[\d.,]+)\s*$` tail of `RE_PAY_LINE` after
`PAGAMENTO( EFETUADO)?` has been consumed: a whitespace run, the literal
`7117`, the separator, and the amount tail. -/
def pay7117Tail (rest : List Char) : Option (List Char) :=
  let w := rest.takeWhile isPyWS
  if w.isEmpty then none
  else
    match consumeLit "7117".data (rest.drop w.length) with
    | some u =>
        match findPayAmt u with
        | some (p, g) => if sepOK p then some g else none
        | none => none
    | none => none

/-- `RE_PAY_LINE.match`:
`^(?P<date>\d{1,3}/\d{1,2}(?:/\d{4})?)\s+PAGAMENTO(\s+EFETUADO)?\s+7117\s*[-\t ]+(?P<amt>-\s*[\d.,]+)\s*$`
with `re.I`; returns the `date` and `amt` groups.  The greedy optional
`(\s+EFETUADO)?` is tried with the full continuation first, then
dropped. -/
def matchPayStrict (l : List Char) : Option (List Char × List Char) :=
  match payDate l with
  | none => none
  | some (date, rest) =>
      let w := rest.takeWhile isPyWS
      if w.isEmpty then none
      else
        match consumeCI "PAGAMENTO".data (rest.drop w.length) with
        | none => none
        | some rest2 =>
            let withEf :=
              let w2 := rest2.takeWhile isPyWS
              if w2.isEmpty then none
              else
                match consumeCI "EFETUADO".data (rest2.drop w2.length) with
                | some rest3 => pay7117Tail rest3
                | none => none
            match withEf.orElse fun _ => pay7117Tail rest2 with
            | some amt => some (date, amt)
            | none => none

/-- One attempt of the tail `(-?\s*[\d.,]+)\s*$` of `RE_PAY_LINE_ANY` at
the current position: with a leading `-` the sign is taken (dropping it
stalls `\s*` on the `-`); otherwise a whitespace run, then a nonempty
`[\d.,]` run, then only whitespace to the end.  The group includes the
leading whitespace the engine lets it absorb. -/
def anyAmtAt (u : List Char) : Option (List Char) :=
  match u with
  | '-' :: _ => payAmtTailAt u
  | _ =>
      let w := u.takeWhile isPyWS
      let rest2 := u.drop w.length
      let d := rest2.takeWhile isAmtC
      if d.isEmpty then none
      else if (rest2.drop d.length).all isPyWS then some (w ++ d)
      else none

/-- The `.*?(-?\s*[\d.,]+)\s*$` tail of `RE_PAY_LINE_ANY`: the lazy
`.*?` makes the engine take the leftmost position where the amount tail
matches; `.` cannot cross a newline. -/
def anyTail : List Char → Option (List Char)
  | [] => none
  | c :: r =>
      match anyAmtAt (c :: r) with
      | some g => some g
      | none => if c == '\n' then none else anyTail r

/-- `RE_PAY_LINE_ANY.match`:
`^(?P<date>\d{1,3}/\d{1,2}(?:/\d{4})?)\s+PAGAMENTO.*?(?P<amt>-?\s*[\d.,]+)\s*$`
with `re.I`. -/
def matchPayAny (l : List Char) : Option (List Char × List Char) :=
  match payDate l with
  | none => none
  | some (date, rest) =>
      let w := rest.takeWhile isPyWS
      if w.isEmpty then none
      else
        match consumeCI "PAGAMENTO".data (rest.drop w.length) with
        | none => none
        | some rest2 => (anyTail rest2).map fun amt => (date, amt)

/-- `mp = RE_PAY_LINE.match(line) or RE_PAY_LINE_ANY.match(line)` from
the scanner's payment branch.  Both patterns' `amt` groups are
necessarily nonempty, so the source's `mp.group("amt")` truthiness test
(and its dead `elif` logging branch) always passes when `mp` matched. -/
def matchPay (l : List Char) : Option (List Char × List Char) :=
  (matchPayStrict l).orElse fun _ => matchPayAny l

/-- `RE_DOM.match`:
`^(?P<date>\d{1,3}/\d{1,2})\s+(?P<desc>.+?)\s+(?P<amt>[-\d.,]+)$`.
Derived deterministic form (verified against CPython): the date is as in
`payDate` but with no year alternative — a `/` or digit after the month
run makes the following `\s+` fail; the amount is the maximal
`[-\d.,]` suffix run; splitting the middle, when it contains a
non-whitespace character the leading `\s+` is its maximal whitespace
prefix (must be nonempty), `desc` runs from there to the last
non-whitespace character, and the final `\s+` is the remaining suffix
(must be nonempty); when the middle is all whitespace the lazy `desc`
collapses to the single whitespace character preceding the final run,
requiring at least three characters (and a non-newline for `desc`,
scanning leftwards past newlines). -/
def matchDom (l : List Char) : Option (List Char × List Char × List Char) :=
  let r1 := l.takeWhile isDig
  if r1.length < 1 || 3 < r1.length then none
  else
    match l.drop r1.length with
    | '/' :: rest2 =>
        let r2 := rest2.takeWhile isDig
        if r2.length < 1 || 2 < r2.length then none
        else
          let date := r1 ++ '/' :: r2
          let mid := rest2.drop r2.length
          let amtR := mid.reverse.takeWhile isAmtNegC
          if amtR.isEmpty then none
          else
            let pre := (mid.reverse.drop amtR.length).reverse
            let wfR := pre.reverse.takeWhile isPyWS
            if wfR.isEmpty then none
            else if (pre.reverse.drop wfR.length).isEmpty then
              -- middle is all whitespace: desc steals one character
              domAllWS date amtR.reverse (wfR.drop 1)
            else
              let core := (pre.reverse.drop wfR.length).reverse
              let w1 := core.takeWhile isPyWS
              if w1.isEmpty then none
              else
                let desc := core.drop w1.length
                if desc.contains '\n' then none
                else some (date, desc, amtR.reverse)
    | _ => none
where
  domAllWS (date amt : List Char) : List Char → Option (List Char × List Char × List Char)
    | [] => none
    | c :: rest =>
        -- rest is the part that must still hold `\s+` and a nonempty desc
        if rest.isEmpty then none
        else if c == '\n' then domAllWS date amt rest
        else some (date, [c], amt)

/-- One attempt of `RE_INST = (\d{1,2})/(\d{1,2})` at the current
position: the digit run must have length 1-2 (a longer run leaves a
digit where `/` must be, for both repeat counts), then `/`, then a
nonempty digit run of which the first two digits are the second
group. -/
def instAt (l : List Char) : Option (Nat × Nat) :=
  let r1 := l.takeWhile isDig
  if r1.length < 1 || 2 < r1.length then none
  else
    match l.drop r1.length with
    | '/' :: rest =>
        let r2 := rest.takeWhile isDig
        if r2.isEmpty then none
        else some (digitsToNat r1, digitsToNat (r2.take 2))
    | _ => none

/-- `RE_INST.search`. -/
def searchInst : List Char → Option (Nat × Nat)
  | [] => none
  | c :: r => (instAt (c :: r)).orElse fun _ => searchInst r

/-- One attempt of `RE_INST_TXT = \+\s*(\d+)\s*x\s*R\$` (case-sensitive)
at the current position.  The greedy `\d+` cannot usefully backtrack
(a shorter run leaves a digit under `\s*x`). -/
def instTxtAt (l : List Char) : Option Nat :=
  match l with
  | '+' :: rest =>
      let rest2 := rest.dropWhile isPyWS
      let d := rest2.takeWhile isDig
      if d.isEmpty then none
      else
        match (rest2.drop d.length).dropWhile isPyWS with
        | 'x' :: rest3 =>
            match consumeLit "R$".data (rest3.dropWhile isPyWS) with
            | some _ => some (digitsToNat d)
            | none => none
        | _ => none
  | _ => none

/-- `RE_INST_TXT.search`. -/
def searchInstTxt : List Char → Option Nat
  | [] => none
  | c :: r => (instTxtAt (c :: r)).orElse fun _ => searchInstTxt r

/-- Result of one attempt of the loop-local
`re_parc = (\d{1,2})\s*/\s*(\d{1,2})|(\d{1,2})\s*x\s*R\$|(\d{1,2})\s*de\s*(\d{1,2})`
(`re.I`), tagged by which alternative matched (which determines
`lastindex`: 2, 3 or 5). -/
inductive ParcHit
  | slash (a b : Nat)
  | times (a : Nat)
  | de (a b : Nat)
deriving DecidableEq, Repr

/-- One attempt of `re_parc` at the current position, trying the three
alternatives in pattern order.  In each, the leading `(\d{1,2})` must be
a full run of length 1-2 (a longer run, or a shortened repeat, leaves a
digit under the following `\s*`-plus-literal). -/
def parcAt (l : List Char) : Option ParcHit :=
  let r1 := l.takeWhile isDig
  if r1.length < 1 || 2 < r1.length then none
  else
    let a := digitsToNat r1
    let rest := (l.drop r1.length).dropWhile isPyWS
    let alt1 :=
      match rest with
      | '/' :: rest2 =>
          let r2 := (rest2.dropWhile isPyWS).takeWhile isDig
          if r2.isEmpty then none else some (ParcHit.slash a (digitsToNat (r2.take 2)))
      | _ => none
    let alt2 :=
      match rest with
      | x :: rest2 =>
          if x == 'x' || x == 'X' then
            match rest2.dropWhile isPyWS with
            | rc :: '$' :: _ => if rc == 'R' || rc == 'r' then some (ParcHit.times a) else none
            | _ => none
          else none
      | _ => none
    let alt3 :=
      match rest with
      | d :: e :: rest2 =>
          if (d == 'd' || d == 'D') && (e == 'e' || e == 'E') then
            let r2 := (rest2.dropWhile isPyWS).takeWhile isDig
            if r2.isEmpty then none else some (ParcHit.de a (digitsToNat (r2.take 2)))
          else none
      | _ => none
    (alt1.orElse fun _ => alt2).orElse fun _ => alt3

/-- `re_parc.search`. -/
def searchParc : List Char → Option ParcHit
  | [] => none
  | c :: r => (parcAt (c :: r)).orElse fun _ => searchParc r

/-- The scanner's installment extraction:
`ins = RE_INST.search(desc) or RE_INST_TXT.search(desc) or re_parc.search(desc)`
followed by the `lastindex` dispatch.  A `RE_INST` hit has
`lastindex == 2` (both groups), a `RE_INST_TXT` hit has
`lastindex == 1` and falls into the `else: seq, tot = None, None`
branch, and the `re_parc` alternatives give `lastindex` 2, 3 and 5. -/
def domInst (desc : List Char) : Option Nat × Option Nat :=
  match searchInst desc with
  | some (a, b) => (some a, some b)
  | none =>
      match searchInstTxt desc with
      | some _ => (none, none)
      | none =>
          match searchParc desc with
          | some (.slash a b) => (some a, some b)
          | some (.times a) => (some a, none)
          | some (.de a b) => (some a, some b)
          | none => (none, none)

/-- A Python value stored in a posting's field: a string, an exact
`Decimal`, the result of `float(...)` applied to a `Decimal` (the
payment branch's `valor_final = float(valor)`; the IEEE rounding of the
conversion is not modelled — the tag records that the field holds a
float, and the carried `Dec` is the decimal it was converted from), an
`int`, or `None`. -/
inductive PVal
  | str (s : List Char)
  | dec (d : Dec)
  | flt (d : Dec)
  | int (n : Nat)
  | none
deriving DecidableEq, Repr

/-- Python truthiness of a field value (`if not d[k]`,
`r.get("post_date")`). -/
def pvalTruthy : PVal → Bool
  | .str s => !s.isEmpty
  | .dec d => d.mant != 0
  | .flt d => d.mant != 0
  | .int n => n != 0
  | .none => false

/-- `str(v)` as used when building the hash message (float `repr` is
not modelled faithfully — no claim depends on the digest text). -/
def pyStr : PVal → List Char
  | .str s => s
  | .dec d => renderDec d
  | .flt d => renderDec d
  | .int n => Nat.toDigits 10 n
  | .none => "None".data

/-- One posting record: the fixed 15-field `SCHEMA` of the source. -/
structure Posting where
  card_last4 : PVal
  post_date : PVal
  desc_raw : PVal
  valor_brl : PVal
  installment_seq : PVal
  installment_tot : PVal
  valor_orig : PVal
  moeda_orig : PVal
  valor_usd : PVal
  fx_rate : PVal
  iof_brl : PVal
  categoria_high : PVal
  merchant_city : PVal
  ledger_hash : PVal
  pagamento_fatura_anterior : PVal
deriving DecidableEq, Repr

/-- The optional keyword arguments (`**kv`) a call site of `build`
passes: `Option.none` means the key was not passed at all (so the
schema fill-in later supplies `""`), while `some PVal.none` means the
key was passed with value `None` (the key then exists in the dict and
is left as `None`). -/
structure KV where
  installment_seq : Option PVal := Option.none
  installment_tot : Option PVal := Option.none
  valor_orig : Option PVal := Option.none
  moeda_orig : Option PVal := Option.none
  valor_usd : Option PVal := Option.none
  fx_rate : Option PVal := Option.none
  iof_brl : Option PVal := Option.none
  merchant_city : Option PVal := Option.none
  pagamento_fatura_anterior : Option PVal := Option.none
deriving DecidableEq, Repr

/-- `sha1(card, date, desc, valor_brl, installment_tot, categoria_high)`
from the source builds the digest of
`f"{card}|{date}|{desc}|{valor_brl}|{installment_tot}|{categoria_high}"`.
SHA-1 itself is modelled as the identity on that message: the claims
depend only on the hash being a deterministic, nonempty function of
these six inputs, which the message itself is (it always contains
`|`). -/
def sha1M (card date desc valorS totS cat : List Char) : List Char :=
  card ++ '|' :: (date ++ '|' :: (desc ++ '|' :: (valorS ++ '|' :: (totS ++ '|' :: cat))))

/-- Python `str.title()` on a single word (used for
`desc.split()[0].title()`): a letter after a non-letter is uppercased,
a letter after a letter is lowercased. -/
def pyTitleGo (prevAlpha : Bool) : List Char → List Char
  | [] => []
  | c :: r =>
      let c' := if prevAlpha then lowChar c else upChar c
      c' :: pyTitleGo c.isAlpha r

def pyTitle (l : List Char) : List Char := pyTitleGo false l

/-- `build(card, date, desc, valor_brl, cat, ry, rm, **kv)` from the
source.  `norm` is the normalized date (empty when `date` is falsy);
the ledger hash uses `kv.get("installment_tot")` (so `None` both when
absent and when passed as `None`); `merchant_city` is the passed city
for FX postings when truthy, else the title-cased first word of a
spaced FX description (`desc.split()[0]` cannot fail at the source's
call sites: every desc reaching this branch ends in a non-space), else
`None`; every schema key not in the dict is filled with `""`.  The
required-field logging is a side effect with no data flow and is not
modelled. -/
def build (card date desc : List Char) (valor : PVal) (cat : List Char)
    (ry rm : Nat) (kv : KV) : Posting :=
  let norm := if date.isEmpty then [] else norm_date date ry rm
  let ledger := sha1M card norm desc (pyStr valor)
    (pyStr ((kv.installment_tot).getD PVal.none)) cat
  let city : PVal :=
    if cat == "FX".data && (match kv.merchant_city with
        | some v => pvalTruthy v
        | Option.none => false) then (kv.merchant_city).getD PVal.none
    else if cat == "FX".data && desc.contains ' ' then
      .str (pyTitle ((pySplit desc).headD []))
    else .none
  { card_last4 := .str card
    post_date := .str norm
    desc_raw := .str desc
    valor_brl := valor
    categoria_high := .str cat
    merchant_city := city
    ledger_hash := .str ledger
    installment_seq := (kv.installment_seq).getD (.str [])
    installment_tot := (kv.installment_tot).getD (.str [])
    valor_orig := (kv.valor_orig).getD (.str [])
    moeda_orig := (kv.moeda_orig).getD (.str [])
    valor_usd := (kv.valor_usd).getD (.str [])
    fx_rate := (kv.fx_rate).getD (.str [])
    iof_brl := (kv.iof_brl).getD (.str [])
    pagamento_fatura_anterior := (kv.pagamento_fatura_anterior).getD (.str []) }

/-- The scanner's `Counter` of statistics: a total map from key to
count, zero by default. -/
def Counter := List Char → Nat

def Counter.zero : Counter := fun _ => 0

/-- `stats[k] += 1`. -/
def Counter.bump (c : Counter) (k : List Char) : Counter :=
  fun x => if x = k then c x + 1 else c x

/-- `stats[k] = n`. -/
def Counter.set (c : Counter) (k : List Char) (n : Nat) : Counter :=
  fun x => if x = k then n else c x

/-- The FX composite dedup key
`(desc, post_date, valor_brl, valor_orig, moeda_orig, fx_rate)`. -/
structure FxKey where
  desc : List Char
  postDate : List Char
  valorBrl : Dec
  valorOrig : Dec
  moeda : List Char
  fxRate : Dec
deriving DecidableEq, Repr

/-- Python tuple equality of two FX keys: component-wise, with
`Decimal` components compared by value (`Decimal("1.0") == Decimal("1.00")`). -/
def keyEq (a b : FxKey) : Bool :=
  a.desc == b.desc && a.postDate == b.postDate && a.valorBrl.eqv b.valorBrl &&
  a.valorOrig.eqv b.valorOrig && a.moeda == b.moeda && a.fxRate.eqv b.fxRate

/-- `fx_key in seen_fx` (set membership via tuple equality). -/
def keyMem (k : FxKey) (seen : List FxKey) : Bool := seen.any (keyEq k)

/-- The scanner state carried across loop iterations of `parse_txt`
(everything except the cursor `i`, which the loop owns).  `card` is set
to `"0000"` once and never reassigned (`RE_CARD` is unused inside
`parse_txt`).  `skip` is initialized to 0 and only ever decremented, so
its branch is dead but modelled.  `dupLog` records the `[DUPLICATE]`
log events of the FX branch (the print is the only observable effect of
that branch). -/
structure StCore where
  rows : List Posting
  iofPostings : List Posting
  stats : Counter
  card : List Char
  skip : Nat
  lastDate : Option (List Char)
  pagCount : Nat
  seenFx : List FxKey
  dupLog : List FxKey

/-- The guard of the scanner's FX branch at cursor `i`:
`RE_DATE.match(line) and i+2 < len(lines)` and then
`if mfx2 and mrate`. -/
def fxCond (lines : List (List Char)) (i : Nat) : Bool :=
  (reDateMatch (clean (lines.getD i []))).isSome && i + 2 < lines.length &&
  (matchFXL2 (clean (lines.getD (i + 1) []))).isSome &&
  (searchRate (clean (lines.getD (i + 2) []))).isSome

/-- The fields the FX branch extracts from a matched 3-line block. -/
structure FxRec where
  postDate : List Char
  desc : List Char
  city : List Char
  moeda : List Char
  valorBrl : Dec
  valorOrig : Dec
  valorUsd : Dec
  fxRate : Dec
deriving DecidableEq, Repr

/-- The FX branch's field extraction: `parts = line.split()`,
`post_date = parts[0]`, `valor_brl = decomma(parts[-1])`,
`desc = " ".join(parts[1:-1])`, the four `mfx2`/`mrate` groups and their
`decomma` conversions, in source order (a failing `decomma` raises,
modelled as `Except.error`; `parts[0]` cannot fail under `fxCond`, since
the line starts with a digit). -/
def fxData (lines : List (List Char)) (i : Nat) : Except Unit FxRec :=
  match matchFXL2 (clean (lines.getD (i + 1) [])),
      searchRate (clean (lines.getD (i + 2) [])) with
  | some (g1, g2, g3, g4), some fr =>
      let parts := pySplit (clean (lines.getD i []))
      if parts.isEmpty then .error ()
      else do
        let valorBrl ← decomma (parts.getLastD [])
        let valorOrig ← decomma g2
        let valorUsd ← decomma g4
        let fxRate ← decomma fr
        .ok { postDate := parts.headD [], desc := joinSpace ((parts.drop 1).dropLast),
              city := g1, moeda := g3,
              valorBrl := valorBrl, valorOrig := valorOrig,
              valorUsd := valorUsd, fxRate := fxRate }
  | _, _ => .error ()

/-- The composite dedup key of an extracted FX block. -/
def fxKeyOf (d : FxRec) : FxKey :=
  { desc := d.desc, postDate := d.postDate, valorBrl := d.valorBrl,
    valorOrig := d.valorOrig, moeda := d.moeda, fxRate := d.fxRate }

/-- The posting the FX branch appends. -/
def fxBuild (card : List Char) (d : FxRec) (ry rm : Nat) : Posting :=
  build card d.postDate d.desc (.dec d.valorBrl) "FX".data ry rm
    { valor_orig := some (.dec d.valorOrig), moeda_orig := some (.str d.moeda),
      valor_usd := some (.dec d.valorUsd), fx_rate := some (.dec d.fxRate),
      merchant_city := some (.str d.city) }

/-- `Option Nat` installment value as stored in the posting dict. -/
def optNat : Option Nat → PVal
  | some n => .int n
  | Option.none => .none

/-- The keyword guard of the interest/fee branch:
`any(x in line.upper() for x in ("JUROS", "MULTA", "IOF DE FINANCIAMENTO"))`. -/
def encKw (line : List Char) : Bool :=
  containsSub "JUROS".data (pyUpper line) || containsSub "MULTA".data (pyUpper line) ||
  containsSub "IOF DE FINANCIAMENTO".data (pyUpper line)

/-- The FX branch body: extract the block's fields, dedup on the
composite key (a repeat is only logged), otherwise append the posting
and remember the key; either way three lines are consumed. -/
def fxStep (lines : List (List Char)) (ry rm i : Nat) (s : StCore) :
    Except Unit (StCore × Bool) :=
  match fxData lines i with
  | .error e => .error e
  | .ok d =>
      let key := fxKeyOf d
      if keyMem key s.seenFx then .ok ({ s with dupLog := s.dupLog ++ [key] }, true)
      else
        .ok ({ s with
          rows := s.rows ++ [fxBuild s.card d ry rm],
          seenFx := s.seenFx ++ [key],
          stats := s.stats.bump "fx".data }, true)

/-- The payment branch body: a non-negative `float(valor)` is an
anomaly (logged, no posting); otherwise one PAGAMENTO posting holding
the float, and `last_date` is set to the matched date token. -/
def payStep (ry rm : Nat) (dateTok amtTok : List Char) (s : StCore) :
    Except Unit (StCore × Bool) :=
  match decomma amtTok with
  | .error e => .error e
  | .ok v =>
      if Dec.le ⟨0, 0⟩ v then .ok (s, false)
      else
        .ok ({ s with
          rows := s.rows ++ [build s.card dateTok "PAGAMENTO".data (.flt v)
            "PAGAMENTO".data ry rm { pagamento_fatura_anterior := some (.str []) }],
          stats := s.stats.bump "pagamento".data,
          lastDate := some dateTok,
          pagCount := s.pagCount + 1 }, false)

/-- The domestic-purchase branch body: installment extraction with the
out-of-cycle rejection, classification, one posting, and `last_date`
set to the date token. -/
def domStep (ry rm : Nat) (dateTok desc amtTok : List Char) (s : StCore) :
    Except Unit (StCore × Bool) :=
  match decomma amtTok with
  | .error e => .error e
  | .ok amt =>
      let st := domInst desc
      let reject :=
        match st.2, st.1 with
        | some t, some q => t != 0 && q != 0 && t < q
        | _, _ => false
      if reject then .ok (s, false)
      else
        let cat := classify desc amt
        .ok ({ s with
          rows := s.rows ++ [build s.card dateTok desc (.dec amt) cat ry rm
            { installment_seq := some (optNat st.1),
              installment_tot := some (optNat st.2) }],
          stats := s.stats.bump (pyLower cat),
          lastDate := some dateTok }, false)

/-- The IOF-remittance branch body: one IOF posting, dated to the
carried `last_date` (empty when none), appended to the side list
`iof_postings`, not to `rows`. -/
def iofStep (ry rm : Nat) (tok : List Char) (s : StCore) :
    Except Unit (StCore × Bool) :=
  match decomma tok with
  | .error e => .error e
  | .ok v =>
      .ok ({ s with
        iofPostings := s.iofPostings ++
          [build s.card ((s.lastDate).getD []) "Repasse de IOF em R$".data
            (.dec v) "IOF".data ry rm { iof_brl := some (.dec v) }],
        stats := s.stats.bump "iof".data }, false)

/-- The miss outcome: count the line in `regex_miss`. -/
def missStep (s : StCore) : Except Unit (StCore × Bool) :=
  .ok ({ s with stats := s.stats.bump "regex_miss".data }, false)

/-- The interest/fee branch body, falling through to the miss outcome
when no amount is found or the amount is zero. -/
def encStep (ry rm : Nat) (line : List Char) (s : StCore) :
    Except Unit (StCore × Bool) :=
  match searchBRL line with
  | some tok =>
      match decomma tok with
      | .error e => .error e
      | .ok v =>
          if !(v.eqv ⟨0, 0⟩) then
            .ok ({ s with
              rows := s.rows ++ [build s.card ((s.lastDate).getD []) line
                (.dec v) "ENCARGOS".data ry rm {}],
              stats := s.stats.bump "encargos".data }, false)
          else missStep s
  | Option.none => missStep s

/-- One iteration of `parse_txt`'s `while` loop at cursor `i`: the
branch cascade in source order (skip countdown; FX block; payment;
domestic purchase under `RE_DATE`; IOF remittance; interest/fee;
miss).  Returns the updated state and whether the FX branch consumed
three lines (`i += 3`) rather than one.  A failing `decomma` propagates
as `Except.error` — `parse_txt` has no exception handler.  The prints
(`[PAGAMENTO-ERR]`, `[VALOR-SUSPEITO]`, `[PARCELA-ERR]`,
`[CAT-SUSPEITA]`) and the `verbose` side file are data-free logging and
are not modelled; the `float(valor) >= 0` payment-sign test is modelled
on the exact value. -/
def stepAt (lines : List (List Char)) (ry rm : Nat) (i : Nat) (s : StCore) :
    Except Unit (StCore × Bool) :=
  if s.skip != 0 then .ok ({ s with skip := s.skip - 1 }, false)
  else
    let line := clean (lines.getD i [])
    if fxCond lines i then fxStep lines ry rm i s
    else
      match matchPay line with
      | some (dateTok, amtTok) => payStep ry rm dateTok amtTok s
      | Option.none =>
          if (reDateMatch line).isSome then
            match matchDom line with
            | some (dateTok, desc, amtTok) => domStep ry rm dateTok desc amtTok s
            | Option.none => .ok (s, false)
          else
            match searchIOF line with
            | some tok => iofStep ry rm tok s
            | Option.none =>
                if encKw line then encStep ry rm line s
                else missStep s

/-- The `while i < len(lines)` loop.  Fuel counts iterations: every
iteration advances the cursor by at least 1, so `lines.length` fuel is
always enough — when fuel reaches 0 the cursor is already past the end,
and the 0-fuel result coincides with the loop-exit result. -/
def scanLoop (lines : List (List Char)) (ry rm : Nat) :
    Nat → Nat → StCore → Except Unit StCore
  | 0, _, s => .ok s
  | fuel + 1, i, s =>
      if i < lines.length then
        match stepAt lines ry rm i s with
        | .error e => .error e
        | .ok (s', fx3) => scanLoop lines ry rm fuel (i + if fx3 then 3 else 1) s'
      else .ok s

/-- The initial scanner state of `parse_txt`:
`rows, stats = [], Counter()`, `card = "0000"`, `iof_postings = []`,
`stats["lines"] = len(lines)`, `skip = 0`, `last_date = None`,
`pagamento_count = 0`, `seen_fx = set()`. -/
def initSt (lines : List (List Char)) : StCore :=
  { rows := [], iofPostings := [],
    stats := Counter.zero.set "lines".data lines.length,
    card := "0000".data, skip := 0, lastDate := Option.none,
    pagCount := 0, seenFx := [], dupLog := [] }

/-- The final filter of `parse_txt`:
`r.get("post_date") and r.get("valor_brl") not in ("", None)`. -/
def keepRow (r : Posting) : Bool :=
  pvalTruthy r.post_date && !(r.valor_brl == PVal.str [] || r.valor_brl == PVal.none)

/-- `parse_txt(path, ref_y, ref_m)` from the source, on the file's line
list (reading the file and splitting it is the I/O wrapper outside the
core).  After the scan, `rows.extend(iof_postings)`, the final filter,
and `stats["postings"] = len(rows)`. -/
def parse_txt (lines : List (List Char)) (ry rm : Nat) :
    Except Unit (List Posting × Counter) :=
  match scanLoop lines ry rm lines.length 0 (initSt lines) with
  | .error e => .error e
  | .ok s =>
      let rows := (s.rows ++ s.iofPostings).filter keepRow
      .ok (rows, s.stats.set "postings".data rows.length)

/-- The posting list of a completed parse. -/
def parsedRows (r : Except Unit (List Posting × Counter)) : Option (List Posting) :=
  match r with
  | .ok (rows, _) => some rows
  | .error _ => Option.none

/-- One statistic of a completed parse. -/
def parsedStat (k : List Char) (r : Except Unit (List Posting × Counter)) : Option Nat :=
  match r with
  | .ok (_, st) => some (st k)
  | .error _ => Option.none

/-- The body of a numeral after its optional leading minus sign. -/
def numBody : List Char → List Char
  | '-' :: r => r
  | l => l

/-- Well-formedness of an unsigned cleaned numeral over the alphabet
digits / `'.'` / `'-'`: only digits and at most one point, with at
least one digit. -/
def wfUnsigned (l : List Char) : Bool :=
  l.all (fun c => isDig c || c == '.') &&
  decide (l.countP (fun c => c == '.') ≤ 1) &&
  l.any isDig

/-- Well-formedness of a cleaned amount string for `Decimal(...)`:
after an optional single leading minus, an unsigned well-formed
numeral. -/
def wfNum (l : List Char) : Bool := wfUnsigned (numBody l)

lemma dig_ne_dot {c : Char} (h : isDig c = true) : ¬(c == '.') = true := by
  intro hc
  have hce : c = '.' := beq_iff_eq.mp hc
  subst hce
  exact absurd h (by decide)

lemma splitDot_snd_none {l : List Char} (h : (splitDot l).2 = Option.none) :
    (splitDot l).1 = l := by
  induction l with
  | nil => rfl
  | cons c r ih =>
      by_cases hc : c == '.'
      · simp [splitDot, hc] at h
      · simp only [splitDot, hc, if_false] at h ⊢
        simpa using ih h

lemma splitDot_recon {l b : List Char} (h : (splitDot l).2 = some b) :
    l = (splitDot l).1 ++ '.' :: b := by
  induction l with
  | nil => simp [splitDot] at h
  | cons c r ih =>
      by_cases hc : c == '.'
      · simp only [splitDot, hc, if_true] at h ⊢
        simp only [Option.some.injEq] at h
        subst h
        simp [beq_iff_eq.mp hc]
      · simp only [splitDot, hc, if_false] at h ⊢
        simpa using ih h

lemma splitDot_fst_nodot (l : List Char) : ∀ c ∈ (splitDot l).1, ¬(c == '.') = true := by
  induction l with
  | nil => simp [splitDot]
  | cons c r ih =>
      by_cases hc : c == '.'
      · simp [splitDot, hc]
      · simp only [splitDot, hc, if_false]
        intro x hx
        rcases List.mem_cons.mp hx with h | h
        · subst h; simp [hc]
        · exact ih x h

lemma isEmpty_false_of_mem {α : Type} {l : List α} {x : α} (h : x ∈ l) :
    l.isEmpty = false := by
  cases l with
  | nil => simp at h
  | cons a t => rfl

lemma exists_mem_of_isEmpty_false {α : Type} {l : List α} (h : l.isEmpty = false) :
    ∃ x, x ∈ l := by
  cases l with
  | nil => simp at h
  | cons a t => exact ⟨a, List.mem_cons_self a t⟩

lemma parseU_isSome (l : List Char) :
    (parseDecStr.parseUnsignedDec l).isSome = wfUnsigned l := by
  rw [Bool.eq_iff_iff]
  unfold parseDecStr.parseUnsignedDec wfUnsigned
  rcases h2 : (splitDot l).2 with _ | b
  · have h1 := splitDot_snd_none h2
    have hnd : ∀ c ∈ l, ¬(c == '.') = true := fun c hc =>
      splitDot_fst_nodot l c (by rw [h1]; exact hc)
    simp only [h1, h2]
    constructor
    · intro h
      by_cases ha : l.all isDig
      · simp only [ha, if_true] at h
        by_cases he : l.isEmpty
        · simp [he] at h
        · have hlne : l.isEmpty = false := by
            cases hb : l.isEmpty with
            | false => rfl
            | true => exact absurd hb he
          obtain ⟨c, hc⟩ := exists_mem_of_isEmpty_false hlne
          simp only [Bool.and_eq_true]
          refine ⟨⟨List.all_eq_true.mpr fun x hx => ?_, ?_⟩, ?_⟩
          · simp [List.all_eq_true.mp ha x hx]
          · have : l.countP (fun c => c == '.') = 0 :=
              List.countP_eq_zero.mpr fun x hx => hnd x hx
            simp [this]
          · exact List.any_eq_true.mpr ⟨c, hc, List.all_eq_true.mp ha c hc⟩
      · simp [ha] at h
    · intro hw
      rw [Bool.and_eq_true, Bool.and_eq_true] at hw
      obtain ⟨⟨hall, _⟩, hany⟩ := hw
      have ha : l.all isDig = true := List.all_eq_true.mpr fun x hx => by
        have := List.all_eq_true.mp hall x hx
        rcases Bool.or_eq_true_iff.mp this with h | h
        · exact h
        · exact absurd h (hnd x hx)
      obtain ⟨c, hc, _⟩ := List.any_eq_true.mp hany
      simp [ha, isEmpty_false_of_mem hc]
  · have hrec := splitDot_recon h2
    have hand : ∀ c ∈ (splitDot l).1, ¬(c == '.') = true := splitDot_fst_nodot l
    set a := (splitDot l).1 with hadef
    simp only [h2]
    constructor
    · intro h
      by_cases ha : a.all isDig
      · simp only [ha, if_true] at h
        have hb : (b.all isDig && (!(a.isEmpty && b.isEmpty)) && (!b.contains '.')) = true := by
          cases hcond : (b.all isDig && (!(a.isEmpty && b.isEmpty)) && (!b.contains '.')) with
          | false =>
              rw [hcond] at h
              simp at h
          | true => rfl
        rw [Bool.and_eq_true, Bool.and_eq_true] at hb
        obtain ⟨⟨hb1, hb2⟩, _⟩ := hb
        rw [hrec]
        simp only [Bool.and_eq_true]
        refine ⟨⟨List.all_eq_true.mpr fun x hx => ?_, ?_⟩, ?_⟩
        · rcases List.mem_append.mp hx with h | h
          · simp [List.all_eq_true.mp ha x h]
          · rcases List.mem_cons.mp h with h | h
            · simp [h]
            · simp [List.all_eq_true.mp hb1 x h]
        · have hca : a.countP (fun c => c == '.') = 0 :=
            List.countP_eq_zero.mpr fun x hx => hand x hx
          have hcb : b.countP (fun c => c == '.') = 0 :=
            List.countP_eq_zero.mpr fun x hx => dig_ne_dot (List.all_eq_true.mp hb1 x hx)
          simp [List.countP_append, List.countP_cons, hca, hcb]
        · have hne2 : a.isEmpty = false ∨ b.isEmpty = false := by
            cases hae : a.isEmpty with
            | false => exact Or.inl rfl
            | true =>
                cases hbe : b.isEmpty with
                | false => exact Or.inr rfl
                | true =>
                    rw [hae, hbe] at hb2
                    simp at hb2
          rcases hne2 with h | h
          · obtain ⟨c, hc⟩ := exists_mem_of_isEmpty_false h
            exact List.any_eq_true.mpr ⟨c, List.mem_append.mpr (Or.inl hc),
              List.all_eq_true.mp ha c hc⟩
          · obtain ⟨c, hc⟩ := exists_mem_of_isEmpty_false h
            exact List.any_eq_true.mpr ⟨c,
              List.mem_append.mpr (Or.inr (List.mem_cons.mpr (Or.inr hc))),
              List.all_eq_true.mp hb1 c hc⟩
      · simp [ha] at h
    · intro hw
      rw [Bool.and_eq_true, Bool.and_eq_true] at hw
      obtain ⟨⟨hall, hcount⟩, hany⟩ := hw
      rw [hrec] at hall hcount hany
      have hcb : b.countP (fun c => c == '.') = 0 := by
        have := of_decide_eq_true hcount
        simp only [List.countP_append, List.countP_cons] at this
        simp at this
        omega
      have hbd : b.all isDig = true := List.all_eq_true.mpr fun x hx => by
        have h1 := List.all_eq_true.mp hall x
          (List.mem_append.mpr (Or.inr (List.mem_cons.mpr (Or.inr hx))))
        rcases Bool.or_eq_true_iff.mp h1 with h | h
        · exact h
        · have := List.countP_eq_zero.mp hcb x hx
          simp only [h] at this
          exact absurd this (by simp)
      have had : a.all isDig = true := List.all_eq_true.mpr fun x hx => by
        have h1 := List.all_eq_true.mp hall x (List.mem_append.mpr (Or.inl hx))
        rcases Bool.or_eq_true_iff.mp h1 with h | h
        · exact h
        · exact absurd h (hand x hx)
      have hnotin : '.' ∉ b := fun hmem => by
        have := List.countP_eq_zero.mp hcb '.' hmem
        simp at this
      have hne : (!(a.isEmpty && b.isEmpty)) = true := by
        obtain ⟨c, hc, hcd⟩ := List.any_eq_true.mp hany
        rcases List.mem_append.mp hc with h | h
        · simp [isEmpty_false_of_mem h]
        · rcases List.mem_cons.mp h with h | h
          · subst h
            exact absurd hcd (by decide)
          · simp [isEmpty_false_of_mem h]
      simp [had, hbd, hne, hnotin]

lemma parse_isSome (l : List Char) : (parseDecStr l).isSome = wfNum l := by
  rcases l with _ | ⟨c, r⟩
  · exact parseU_isSome []
  · by_cases hc : c = '-'
    · subst hc
      have h1 : parseDecStr ('-' :: r) =
          (parseDecStr.parseUnsignedDec r).map
            (fun d => ({ mant := -d.mant, scale := d.scale } : Dec)) := rfl
      have h2 : numBody ('-' :: r) = r := rfl
      unfold wfNum
      rw [h1, h2, ← parseU_isSome r]
      cases hu : parseDecStr.parseUnsignedDec r with
      | none => simp [hu]
      | some d => simp [hu]
    · unfold parseDecStr wfNum numBody
      split
      · rename_i heq
        injection heq with h1 h2
        exact absurd h1 hc
      · exact parseU_isSome (c :: r)

lemma numBody_any_isDig {l : List Char} (h : (numBody l).any isDig = true) :
    l.any isDig = true := by
  rcases l with _ | ⟨c, r⟩
  · exact h
  · by_cases hc : c = '-'
    · subst hc
      have : numBody ('-' :: r) = r := rfl
      rw [this] at h
      obtain ⟨x, hx, hxd⟩ := List.any_eq_true.mp h
      exact List.any_eq_true.mpr ⟨x, List.mem_cons.mpr (Or.inr hx), hxd⟩
    · have : numBody (c :: r) = c :: r := by
        unfold numBody
        split
        · rename_i heq
          injection heq with h1 h2
          exact absurd h1 hc
        · rfl
      rwa [this] at h

/-- C3: the date normalizer on the spec's two examples.  The claim's
first example is false on the code: `RE_DATE` reads `"5/3"` as day 5 and
month 3, so the result is `"2025-03-05"`, not `"2025-05-05"` (the month
group of the pattern is mandatory, so the reference month is never
substituted for a `D/M` token). -/
theorem c3_counterexample :
    norm_date "5/3".data 2025 5 = "2025-03-05".data ∧
    norm_date "5/3".data 2025 5 ≠ "2025-05-05".data := by
  constructor
  · decide
  · decide

/-- C3 (amended): `norm_date ("5/3", 2025, 5)` returns `"2025-03-05"`
(day and month both come from the token; the reference year replaces
only a missing year), and `norm_date ("5/3/2024", 2025, 5)` returns
`"2024-03-05"`. -/
theorem c3_norm_date_amended :
    norm_date "5/3".data 2025 5 = "2025-03-05".data ∧
    norm_date "5/3/2024".data 2025 5 = "2024-03-05".data := by
  constructor
  · decide
  · decide

/-- C7: `decomma` on the string `"1,2,3"`: its cleaned form `"1.2.3"`
contains digits, yet `Decimal("1.2.3")` raises `InvalidOperation` —
so "fails exactly when the cleaned string has no digits" is false. -/
theorem c7_counterexample :
    (cleanAmt "1,2,3".data).any isDig = true ∧ decomma "1,2,3".data = .error () := by
  constructor
  · decide
  · rfl

/-- C7 (amended): `decomma` returns an exact fixed-point value exactly
when the cleaned form (digits, comma, minus only; dots discarded, comma
to point) is a well-formed numeral — an optional single leading minus,
at most one decimal point, and at least one digit; in particular
`"1.234,56" → 1234.56`, `"-12,00" → -12.00`, `"0,30" → 0.30`, and it
fails whenever the cleaned string has no digits (but also on
digit-containing malformed strings such as `"1,2,3"`). -/
theorem c7_decomma_amended :
    (∀ s : List Char, (decomma s).isOk = wfNum (cleanAmt s)) ∧
    decomma "1.234,56".data = .ok ⟨123456, 2⟩ ∧
    decomma "-12,00".data = .ok ⟨-1200, 2⟩ ∧
    decomma "0,30".data = .ok ⟨30, 2⟩ ∧
    (∀ s : List Char, (cleanAmt s).any isDig = false → decomma s = .error ()) := by
  refine ⟨fun s => ?_, by rfl, by rfl, by rfl, fun s h => ?_⟩
  · unfold decomma
    rw [← parse_isSome]
    cases hp : parseDecStr (cleanAmt s) with
    | none => simp [hp, Except.isOk, Except.toBool]
    | some d => simp [hp, Except.isOk, Except.toBool]
  · unfold decomma
    cases hp : parseDecStr (cleanAmt s) with
    | none => rfl
    | some d =>
        have hsome : (parseDecStr (cleanAmt s)).isSome = true := by simp [hp]
        rw [parse_isSome] at hsome
        unfold wfNum wfUnsigned at hsome
        rw [Bool.and_eq_true, Bool.and_eq_true] at hsome
        have := numBody_any_isDig hsome.2
        rw [h] at this
        cases this

/-- Witness for the hypothesis-bearing parts of the amended C7. -/
theorem c7_decomma_amended_witness :
    (cleanAmt "abc".data).any isDig = false ∧ decomma "abc".data = .error () :=
  ⟨by decide, c7_decomma_amended.2.2.2.2 "abc".data (by decide)⟩

/-- Is the first character (if any) whitespace? -/
def firstWS (l : List Char) : Bool :=
  match l with
  | [] => false
  | c :: _ => isPyWS c

/-- No two adjacent whitespace characters. -/
def noAdjWS : List Char → Prop
  | [] => True
  | [_] => True
  | a :: b :: r => ¬(isPyWS a = true ∧ isPyWS b = true) ∧ noAdjWS (b :: r)

lemma noAdjWS_tail {a : Char} {l : List Char} (h : noAdjWS (a :: l)) : noAdjWS l := by
  rcases l with _ | ⟨b, r⟩
  · trivial
  · exact h.2

lemma noAdjWS_cons {l : List Char} (a : Char) (h1 : noAdjWS l)
    (h2 : isPyWS a = false ∨ firstWS l = false) : noAdjWS (a :: l) := by
  rcases l with _ | ⟨b, r⟩
  · trivial
  · refine ⟨?_, h1⟩
    rintro ⟨ha, hb⟩
    rcases h2 with h | h
    · rw [h] at ha; cases ha
    · rw [show firstWS (b :: r) = isPyWS b from rfl, hb] at h; cases h

/-- Structure of the whitespace collapser's output, by mode: the output
never holds two adjacent whitespace characters; in `start` mode the
output's first character is whitespace exactly when the input's is; in
`many` mode the output starts with a non-whitespace character; in
`one c` mode (entered only with whitespace `c`) the output starts with
whitespace. -/
lemma collapse_spec (l : List Char) :
    (noAdjWS (collapseGo .start l) ∧ firstWS (collapseGo .start l) = firstWS l) ∧
    (noAdjWS (collapseGo .many l) ∧ firstWS (collapseGo .many l) = false) ∧
    (∀ c, isPyWS c = true →
      noAdjWS (collapseGo (.one c) l) ∧ firstWS (collapseGo (.one c) l) = true) := by
  induction l with
  | nil =>
      refine ⟨⟨trivial, rfl⟩, ⟨trivial, rfl⟩, fun c hc => ⟨trivial, ?_⟩⟩
      simpa [collapseGo, firstWS] using hc
  | cons x r ih =>
      by_cases hx : isPyWS x = true
      · refine ⟨⟨?_, ?_⟩, ⟨?_, ?_⟩, fun c hc => ⟨?_, ?_⟩⟩
        · rw [show collapseGo .start (x :: r) = collapseGo (.one x) r by
            simp [collapseGo, hx]]
          exact (ih.2.2 x hx).1
        · rw [show collapseGo .start (x :: r) = collapseGo (.one x) r by
            simp [collapseGo, hx]]
          rw [(ih.2.2 x hx).2]
          simp [firstWS, hx]
        · rw [show collapseGo .many (x :: r) = collapseGo .many r by
            simp [collapseGo, hx]]
          exact ih.2.1.1
        · rw [show collapseGo .many (x :: r) = collapseGo .many r by
            simp [collapseGo, hx]]
          exact ih.2.1.2
        · rw [show collapseGo (.one c) (x :: r) = ' ' :: collapseGo .many r by
            simp [collapseGo, hx]]
          exact noAdjWS_cons ' ' ih.2.1.1 (Or.inr ih.2.1.2)
        · rw [show collapseGo (.one c) (x :: r) = ' ' :: collapseGo .many r by
            simp [collapseGo, hx]]
          rfl
      · have hxf : isPyWS x = false := by
          cases hxx : isPyWS x
          · rfl
          · exact absurd hxx hx
        refine ⟨⟨?_, ?_⟩, ⟨?_, ?_⟩, fun c hc => ⟨?_, ?_⟩⟩
        · rw [show collapseGo .start (x :: r) = x :: collapseGo .start r by
            simp [collapseGo, hxf]]
          exact noAdjWS_cons x ih.1.1 (Or.inl hxf)
        · rw [show collapseGo .start (x :: r) = x :: collapseGo .start r by
            simp [collapseGo, hxf]]
          simp [firstWS]
        · rw [show collapseGo .many (x :: r) = x :: collapseGo .start r by
            simp [collapseGo, hxf]]
          exact noAdjWS_cons x ih.1.1 (Or.inl hxf)
        · rw [show collapseGo .many (x :: r) = x :: collapseGo .start r by
            simp [collapseGo, hxf]]
          simpa [firstWS] using hxf
        · rw [show collapseGo (.one c) (x :: r) = c :: x :: collapseGo .start r by
            simp [collapseGo, hxf]]
          refine noAdjWS_cons c ?_ (Or.inr (by simpa [firstWS] using hxf))
          exact noAdjWS_cons x ih.1.1 (Or.inl hxf)
        · rw [show collapseGo (.one c) (x :: r) = c :: x :: collapseGo .start r by
            simp [collapseGo, hxf]]
          simpa [firstWS] using hc

/-- A list with no adjacent whitespace is a fixed point of the
collapser. -/
lemma collapse_fix : ∀ l : List Char, noAdjWS l → collapseGo .start l = l := by
  intro l
  induction l with
  | nil => intro _; rfl
  | cons x r ih =>
      intro h
      by_cases hx : isPyWS x = true
      · rcases r with _ | ⟨y, r2⟩
        · simp [collapseGo, hx]
        · have hy : isPyWS y = false := by
            cases hyy : isPyWS y
            · rfl
            · exact absurd ⟨hx, hyy⟩ h.1
          have hr2 : collapseGo .start r2 = r2 := by
            have := ih (noAdjWS_tail h)
            rw [show collapseGo .start (y :: r2) = y :: collapseGo .start r2 by
              simp [collapseGo, hy]] at this
            exact List.cons.inj this |>.2
          simp [collapseGo, hx, hy, hr2]
      · have hxf : isPyWS x = false := by
          cases hxx : isPyWS x
          · rfl
          · exact absurd hxx hx
        rw [show collapseGo .start (x :: r) = x :: collapseGo .start r by
          simp [collapseGo, hxf]]
        rw [ih (noAdjWS_tail h)]

lemma dropWhile_firstWS (l : List Char) : firstWS (l.dropWhile isPyWS) = false := by
  induction l with
  | nil => rfl
  | cons c r ih =>
      by_cases hc : isPyWS c = true
      · simpa [List.dropWhile, hc] using ih
      · have hcf : isPyWS c = false := by
          cases hcc : isPyWS c
          · rfl
          · exact absurd hcc hc
        simp [List.dropWhile, hcf, firstWS]

lemma dropWhile_of_firstWS_false {l : List Char} (h : firstWS l = false) :
    l.dropWhile isPyWS = l := by
  rcases l with _ | ⟨c, r⟩
  · rfl
  · have : isPyWS c = false := h
    simp [List.dropWhile, this]

/-- `dropEndWS t` is the prefix of `t` before its trailing whitespace
run. -/
lemma dropEnd_decomp (t : List Char) :
    t = dropEndWS t ++ (t.reverse.takeWhile isPyWS).reverse := by
  conv_lhs => rw [← List.reverse_reverse t,
    ← @List.takeWhile_append_dropWhile _ isPyWS t.reverse]
  rw [List.reverse_append]
  rfl

lemma noAdj_append_left : ∀ {a b : List Char}, noAdjWS (a ++ b) → noAdjWS a := by
  intro a
  induction a with
  | nil => intro _ _; trivial
  | cons x r ih =>
      intro b h
      rcases r with _ | ⟨y, r2⟩
      · trivial
      · exact ⟨h.1, ih h.2⟩

lemma lstrip_cons_pos {c : Char} {r : List Char} (hc : LEAD_SYM.contains c = true) :
    lstripLead (c :: r) = lstripLead r := by
  have e : lstripLead (c :: r) =
      if LEAD_SYM.contains c = true then lstripLead r else c :: r := rfl
  rw [e, if_pos hc]

lemma lstrip_cons_neg {c : Char} {r : List Char} (hc : ¬LEAD_SYM.contains c = true) :
    lstripLead (c :: r) = c :: r := by
  have e : lstripLead (c :: r) =
      if LEAD_SYM.contains c = true then lstripLead r else c :: r := rfl
  rw [e, if_neg hc]

lemma mem_lstrip {x : Char} : ∀ {l : List Char}, x ∈ lstripLead l → x ∈ l := by
  intro l
  induction l with
  | nil => intro h; exact h
  | cons c r ih =>
      intro h
      by_cases hc : LEAD_SYM.contains c = true
      · rw [lstrip_cons_pos hc] at h
        exact List.mem_cons.mpr (Or.inr (ih h))
      · rwa [lstrip_cons_neg hc] at h

lemma lstrip_head : ∀ {l : List Char} {c : Char} {r : List Char},
    lstripLead l = c :: r → ¬LEAD_SYM.contains c = true := by
  intro l
  induction l with
  | nil => intro c r h; cases h
  | cons a t ih =>
      intro c r h
      by_cases ha : LEAD_SYM.contains a = true
      · rw [lstrip_cons_pos ha] at h
        exact ih h
      · rw [lstrip_cons_neg ha] at h
        injection h with h1 _
        subst h1
        exact ha

lemma lstrip_fix {l : List Char}
    (h : ∀ c r, l = c :: r → ¬LEAD_SYM.contains c = true) : lstripLead l = l := by
  rcases l with _ | ⟨c, r⟩
  · rfl
  · exact lstrip_cons_neg (h c r rfl)

lemma replUnd_fix : ∀ {l : List Char}, '_' ∉ l → replUnd l = l := by
  intro l
  induction l with
  | nil => intro _; rfl
  | cons c r ih =>
      intro h
      have hc : ¬(c == '_') = true := by
        intro hcu
        exact h (beq_iff_eq.mp hcu ▸ List.mem_cons_self c r)
      have e : replUnd (c :: r) =
          (if (c == '_') = true then ' ' else c) :: replUnd r := rfl
      rw [e, if_neg hc, ih fun hm => h (List.mem_cons.mpr (Or.inr hm))]

lemma mem_replUnd {x : Char} {l : List Char} (h : x ∈ replUnd l) :
    (x ∈ l ∧ x ≠ '_') ∨ x = ' ' := by
  obtain ⟨c, hc, hx⟩ := List.mem_map.mp h
  by_cases hcu : c = '_'
  · subst hcu
    right
    simp only [if_pos (by rfl : ('_' == '_') = true)] at hx
    exact hx.symm
  · left
    have hb : ¬(c == '_') = true := fun hb => hcu (beq_iff_eq.mp hb)
    rw [if_neg hb] at hx
    subst hx
    exact ⟨hc, hcu⟩

lemma mem_collapse {x : Char} : ∀ (m : WSMode) (l : List Char), x ∈ collapseGo m l →
    x ∈ l ∨ x = ' ' ∨ ∃ c, m = WSMode.one c ∧ x = c := by
  intro m l
  induction l generalizing m with
  | nil =>
      intro h
      rcases m with _ | c | _
      · cases h
      · right; right
        exact ⟨c, rfl, by simpa [collapseGo] using h⟩
      · cases h
  | cons a r ih =>
      intro h
      by_cases ha : isPyWS a = true
      · rcases m with _ | c | _
        · rw [show collapseGo .start (a :: r) = collapseGo (.one a) r by
            simp [collapseGo, ha]] at h
          rcases ih _ h with h | h | ⟨c, hc, hx⟩
          · exact Or.inl (List.mem_cons.mpr (Or.inr h))
          · exact Or.inr (Or.inl h)
          · injection hc with hc
            exact Or.inl (hc ▸ hx ▸ List.mem_cons.mpr (Or.inl rfl))
        · rw [show collapseGo (.one c) (a :: r) = ' ' :: collapseGo .many r by
            simp [collapseGo, ha]] at h
          rcases List.mem_cons.mp h with h | h
          · exact Or.inr (Or.inl h)
          · rcases ih _ h with h | h | ⟨c', hc, _⟩
            · exact Or.inl (List.mem_cons.mpr (Or.inr h))
            · exact Or.inr (Or.inl h)
            · cases hc
        · rw [show collapseGo .many (a :: r) = collapseGo .many r by
            simp [collapseGo, ha]] at h
          rcases ih _ h with h | h | ⟨c', hc, _⟩
          · exact Or.inl (List.mem_cons.mpr (Or.inr h))
          · exact Or.inr (Or.inl h)
          · cases hc
      · have haf : isPyWS a = false := by
          cases hc : isPyWS a
          · rfl
          · exact absurd hc ha
        have step : ∀ h0 : x ∈ collapseGo .start r,
            x ∈ a :: r ∨ x = ' ' ∨ ∃ c, m = WSMode.one c ∧ x = c := by
          intro h0
          rcases ih _ h0 with h | h | ⟨c', hc, _⟩
          · exact Or.inl (List.mem_cons.mpr (Or.inr h))
          · exact Or.inr (Or.inl h)
          · cases hc
        rcases m with _ | c | _
        · rw [show collapseGo .start (a :: r) = a :: collapseGo .start r by
            simp [collapseGo, haf]] at h
          rcases List.mem_cons.mp h with h | h
          · exact Or.inl (List.mem_cons.mpr (Or.inl h))
          · exact step h
        · rw [show collapseGo (.one c) (a :: r) = c :: a :: collapseGo .start r by
            simp [collapseGo, haf]] at h
          rcases List.mem_cons.mp h with h | h
          · exact Or.inr (Or.inr ⟨c, rfl, h⟩)
          · rcases List.mem_cons.mp h with h | h
            · exact Or.inl (List.mem_cons.mpr (Or.inl h))
            · exact step h
        · rw [show collapseGo .many (a :: r) = a :: collapseGo .start r by
            simp [collapseGo, haf]] at h
          rcases List.mem_cons.mp h with h | h
          · exact Or.inl (List.mem_cons.mpr (Or.inl h))
          · exact step h

lemma mem_dropWhile {x : Char} {p : Char → Bool} : ∀ {l : List Char},
    x ∈ l.dropWhile p → x ∈ l := by
  intro l
  induction l with
  | nil => intro h; exact h
  | cons c r ih =>
      intro h
      by_cases hc : p c = true
      · rw [List.dropWhile_cons, if_pos hc] at h
        exact List.mem_cons.mpr (Or.inr (ih h))
      · rw [List.dropWhile_cons, if_neg hc] at h
        exact h

lemma mem_stripBoth {x : Char} {l : List Char} (h : x ∈ stripBoth l) : x ∈ l := by
  unfold stripBoth at h
  have h1 := List.mem_reverse.mp h
  have h2 := mem_dropWhile h1
  have h3 := List.mem_reverse.mp h2
  exact mem_dropWhile h3

/-- Characters of `clean s` other than spaces come from `s` and are
never underscores. -/
lemma mem_clean {x : Char} {s : List Char} (h : x ∈ clean s) :
    (x ∈ s ∧ x ≠ '_') ∨ x = ' ' := by
  have h1 := mem_stripBoth h
  rcases mem_collapse _ _ h1 with h2 | h2 | ⟨c, hc, _⟩
  · rcases mem_replUnd h2 with ⟨h3, h4⟩ | h3
    · exact Or.inl ⟨mem_lstrip h3, h4⟩
    · exact Or.inr h3
  · exact Or.inr h2
  · cases hc

lemma noAdj_append_right : ∀ {a b : List Char}, noAdjWS (a ++ b) → noAdjWS b := by
  intro a
  induction a with
  | nil => intro b h; exact h
  | cons x r ih => intro b h; exact ih (noAdjWS_tail h)

lemma collapse_cons_nonws {x : Char} {r : List Char} (hx : isPyWS x = false) :
    collapseGo .start (x :: r) = x :: collapseGo .start r := by
  simp [collapseGo, hx]

lemma stripBoth_eq (l : List Char) : stripBoth l = dropEndWS (l.dropWhile isPyWS) := rfl

/-- C8: the line normalizer is not idempotent: a tab survives the
symbol-lstrip step (only a space is in `LEAD_SYM`) but is removed by the
final `strip()`, exposing a fresh leading `>` that a second `clean`
removes. -/
theorem c8_counterexample :
    clean (clean "\t>x".data) ≠ clean "\t>x".data ∧
    clean "\t>x".data = ">x".data ∧ clean (clean "\t>x".data) = "x".data := by
  refine ⟨by decide, by decide, by decide⟩

/-- C8 (amended): `clean` is idempotent on every string whose
whitespace characters are all plain spaces: for such `s`,
`clean (clean s) = clean s`.  (On strings with other whitespace it can
fail, e.g. on `"\t>x"`.) -/
theorem c8_clean_amended :
    ∀ s : List Char, (∀ c ∈ s, isPyWS c = true → c = ' ') →
      clean (clean s) = clean s := by
  intro s hsp
  by_cases hnil : clean s = []
  · rw [hnil]
    rfl
  · obtain ⟨c, cs, hr⟩ : ∃ c cs, clean s = c :: cs := by
      rcases hcs : clean s with _ | ⟨c, cs⟩
      · exact absurd hcs hnil
      · exact ⟨c, cs, rfl⟩
    -- the intermediate stages of the first clean
    have hqAdj : noAdjWS (collapseWS (replUnd (lstripLead s))) :=
      (collapse_spec (replUnd (lstripLead s))).1.1
    -- the head of the collapser input is a non-whitespace non-symbol
    rcases hu : replUnd (lstripLead s) with _ | ⟨x, xr⟩
    · -- then clean s is empty, contradiction
      have : clean s = [] := by
        unfold clean collapseWS
        rw [hu]
        rfl
      exact absurd this hnil
    · have hx : isPyWS x = false ∧ ¬LEAD_SYM.contains x = true := by
        rcases hls : lstripLead s with _ | ⟨y, yr⟩
        · rw [hls] at hu
          cases hu
        · rw [hls] at hu
          have hy : ¬LEAD_SYM.contains y = true := lstrip_head hls
          have hyu : y ≠ '_' := by
            intro hyeq
            exact hy (by rw [hyeq]; decide)
          have hxy : x = y := by
            have e : replUnd (y :: yr) =
                (if (y == '_') = true then ' ' else y) :: replUnd yr := rfl
            rw [e] at hu
            injection hu with h1 _
            rw [if_neg (fun hb => hyu (beq_iff_eq.mp hb))] at h1
            exact h1.symm
          subst hxy
          have hys : x ∈ s := mem_lstrip (hls ▸ List.mem_cons_self x yr)
          constructor
          · cases hxw : isPyWS x
            · rfl
            · have := hsp x hys hxw
              rw [this] at hy
              exact absurd (by decide) hy
          · exact hy
      -- the collapser output keeps the head and a false firstWS
      have hqHead : collapseWS (replUnd (lstripLead s)) = x :: collapseGo .start xr := by
        unfold collapseWS
        rw [hu]
        exact collapse_cons_nonws hx.1
      have hqFirst : firstWS (collapseWS (replUnd (lstripLead s))) = false := by
        rw [hqHead]
        simpa [firstWS] using hx.1
      -- clean s = dropEndWS of the collapser output
      have hcs : clean s = dropEndWS (collapseWS (replUnd (lstripLead s))) := by
        unfold clean
        rw [stripBoth_eq, dropWhile_of_firstWS_false hqFirst]
      -- head of clean s is x
      have hcx : c = x := by
        have hdec := dropEnd_decomp (collapseWS (replUnd (lstripLead s)))
        rw [← hcs, hr, hqHead] at hdec
        injection hdec with h1 _
        exact h1.symm
      subst hcx
      -- facts about r := clean s
      have hAdjR : noAdjWS (clean s) := by
        rw [hcs]
        have h1 := hqAdj
        rw [dropEnd_decomp (collapseWS (replUnd (lstripLead s)))] at h1
        exact noAdj_append_left h1
      have hUndR : '_' ∉ clean s := by
        intro hmem
        rcases mem_clean hmem with ⟨_, h⟩ | h
        · exact h rfl
        · cases h
      have hRevR : (clean s).reverse.dropWhile isPyWS = (clean s).reverse := by
        rw [hcs]
        unfold dropEndWS
        rw [List.reverse_reverse]
        apply dropWhile_of_firstWS_false
        exact dropWhile_firstWS _
      -- now compute clean (clean s) stage by stage
      set r := clean s with hrdef
      unfold clean
      rw [lstrip_fix (fun c' r' h => by
        rw [hr] at h
        injection h with h1 _
        exact h1 ▸ hx.2)]
      rw [replUnd_fix hUndR]
      rw [show collapseWS r = r from collapse_fix _ hAdjR]
      rw [stripBoth_eq]
      rw [dropWhile_of_firstWS_false (by rw [hr]; simpa [firstWS] using hx.1)]
      unfold dropEndWS
      rw [hRevR, List.reverse_reverse]

/-- Witness for the amended C8 at a concrete space-only string. -/
theorem c8_clean_amended_witness :
    clean (clean "  a   b_c  ".data) = clean "  a   b_c  ".data :=
  c8_clean_amended "  a   b_c  ".data (by decide)

lemma firstCat_cons_pos {d k v : List Char} {rest : List (List Char × List Char)}
    (h : containsSub k d = true) : firstCat d ((k, v) :: rest) = some v := by
  simp [firstCat, h]

lemma firstCat_cons_neg {d k v : List Char} {rest : List (List Char × List Char)}
    (h : containsSub k d = false) : firstCat d ((k, v) :: rest) = firstCat d rest := by
  simp [firstCat, h]

lemma firstCat_append_skip (d : List Char) (m1 m2 : List (List Char × List Char))
    (h : ∀ p ∈ m1, containsSub p.1 d = false) :
    firstCat d (m1 ++ m2) = firstCat d m2 := by
  induction m1 with
  | nil => rfl
  | cons p r ih =>
      rw [List.cons_append, firstCat_cons_neg (h p (List.mem_cons_self p r))]
      exact ih fun q hq => h q (List.mem_cons.mpr (Or.inr hq))

/-- C9: `classify` on a transport-keyword description is not
`TRANSPORTE` for every amount: with `|amt| = 0.25 ∈ (0, 0.30]` the
earlier adjustment rule fires first. -/
theorem c9_counterexample :
    classify "UBER".data ⟨25, 2⟩ = "AJUSTE".data ∧
    classify "UBER".data ⟨25, 2⟩ ≠ "TRANSPORTE".data := by
  constructor
  · decide
  · decide

/-- C9 (amended): `classify` returns `TRANSPORTE` for a description
containing a transport keyword (UBER, TAXI, TRANSP, PASSAGEM) provided
no earlier rule fires: the uppercased description must not contain
`7117` or `AJUSTE`, the amount magnitude must not lie in `(0, 0.30]`,
the description must not contain `IOF`, `JUROS` or `MULTA`, and no
keyword of an earlier row of the mapping table (the 18 rows before
UBER) may occur in it. -/
theorem c9_classify_amended (desc : List Char) (amt : Dec)
    (h1 : containsSub "UBER".data (pyUpper desc) = true ∨
      containsSub "TAXI".data (pyUpper desc) = true ∨
      containsSub "TRANSP".data (pyUpper desc) = true ∨
      containsSub "PASSAGEM".data (pyUpper desc) = true)
    (h2 : containsSub "7117".data (pyUpper desc) = false)
    (h3 : containsSub "AJUSTE".data (pyUpper desc) = false)
    (hAj : (amt.absD.le ⟨30, 2⟩ && !(amt.absD.le ⟨0, 0⟩)) = false)
    (h5 : containsSub "IOF".data (pyUpper desc) = false)
    (h6 : containsSub "JUROS".data (pyUpper desc) = false)
    (h7 : containsSub "MULTA".data (pyUpper desc) = false)
    (h8 : ∀ p ∈ catMapping.take 18, containsSub p.1 (pyUpper desc) = false) :
    classify desc amt = "TRANSPORTE".data := by
  have hfc : firstCat (pyUpper desc) catMapping = some "TRANSPORTE".data := by
    rw [show catMapping = catMapping.take 18 ++ catMapping.drop 18 from
      (List.take_append_drop _ _).symm]
    rw [firstCat_append_skip _ _ _ h8]
    rw [show catMapping.drop 18 =
      ("UBER".data, "TRANSPORTE".data) :: ("TAXI".data, "TRANSPORTE".data) ::
        ("TRANSP".data, "TRANSPORTE".data) :: ("PASSAGEM".data, "TRANSPORTE".data) ::
        catMapping.drop 22 from rfl]
    rcases h1 with h | h | h | h
    · rw [firstCat_cons_pos h]
    · cases hU : containsSub "UBER".data (pyUpper desc) with
      | true => rw [firstCat_cons_pos hU]
      | false => rw [firstCat_cons_neg hU, firstCat_cons_pos h]
    · cases hU : containsSub "UBER".data (pyUpper desc) with
      | true => rw [firstCat_cons_pos hU]
      | false =>
          cases hT : containsSub "TAXI".data (pyUpper desc) with
          | true => rw [firstCat_cons_neg hU, firstCat_cons_pos hT]
          | false =>
              rw [firstCat_cons_neg hU, firstCat_cons_neg hT, firstCat_cons_pos h]
    · cases hU : containsSub "UBER".data (pyUpper desc) with
      | true => rw [firstCat_cons_pos hU]
      | false =>
          cases hT : containsSub "TAXI".data (pyUpper desc) with
          | true => rw [firstCat_cons_neg hU, firstCat_cons_pos hT]
          | false =>
              cases hR : containsSub "TRANSP".data (pyUpper desc) with
              | true =>
                  rw [firstCat_cons_neg hU, firstCat_cons_neg hT, firstCat_cons_pos hR]
              | false =>
                  rw [firstCat_cons_neg hU, firstCat_cons_neg hT,
                    firstCat_cons_neg hR, firstCat_cons_pos h]
  unfold classify classifyCore
  rw [h2, h3, hAj, h5, h6, h7, hfc]
  rfl

/-- Witness for the amended C9 at a concrete description and amount. -/
theorem c9_classify_amended_witness :
    classify "UBER TRIP SP".data ⟨5000, 2⟩ = "TRANSPORTE".data :=
  c9_classify_amended "UBER TRIP SP".data ⟨5000, 2⟩ (by decide) (by decide)
    (by decide) (by decide) (by decide) (by decide) (by decide) (by decide)

/-- A money field holds an exact decimal or the empty marker. -/
def decOrEmpty (v : PVal) : Prop := (∃ d, v = PVal.dec d) ∨ v = PVal.str []

/-- The money-field shape of a posting built by the scanner:
`valor_brl` is an exact decimal, except for postings from the payment
matcher, which hold a float and carry `"PAGAMENTO"` as description and
category; the other money fields are always decimal or empty. -/
def moneyProp (p : Posting) : Prop :=
  ((∃ d, p.valor_brl = PVal.dec d) ∨
    ((∃ d, p.valor_brl = PVal.flt d) ∧ p.desc_raw = PVal.str "PAGAMENTO".data ∧
      p.categoria_high = PVal.str "PAGAMENTO".data)) ∧
  decOrEmpty p.valor_orig ∧ decOrEmpty p.valor_usd ∧
  decOrEmpty p.fx_rate ∧ decOrEmpty p.iof_brl

/-- The scan-state invariant behind C2 and C10: every accumulated row
has well-shaped money fields; rows never carry the IOF category, side
postings always do. -/
def StInv (s : StCore) : Prop :=
  (∀ r ∈ s.rows, moneyProp r ∧ r.categoria_high ≠ PVal.str "IOF".data) ∧
  (∀ r ∈ s.iofPostings, moneyProp r ∧ r.categoria_high = PVal.str "IOF".data)

lemma firstCat_mem : ∀ {d v : List Char} {m : List (List Char × List Char)},
    firstCat d m = some v → ∃ k, (k, v) ∈ m := by
  intro d v m
  induction m with
  | nil => intro h; cases h
  | cons p r ih =>
      obtain ⟨k0, v0⟩ := p
      intro h
      by_cases hc : containsSub k0 d = true
      · rw [firstCat_cons_pos hc] at h
        injection h with h1
        exact ⟨k0, by rw [← h1]; exact List.mem_cons_self _ _⟩
      · have hcf : containsSub k0 d = false := by
          cases hcc : containsSub k0 d
          · rfl
          · exact absurd hcc hc
        rw [firstCat_cons_neg hcf] at h
        obtain ⟨k, hk⟩ := ih h
        exact ⟨k, List.mem_cons.mpr (Or.inr hk)⟩

lemma classify_ne_iof (desc : List Char) (amt : Dec) :
    classify desc amt ≠ "IOF".data := by
  unfold classify classifyCore
  split
  · decide
  · split
    · decide
    · split
      · decide
      · cases hfc : firstCat (pyUpper desc) catMapping with
        | some v =>
            obtain ⟨k, hk⟩ := firstCat_mem hfc
            have hall : ∀ p ∈ catMapping, p.2 ≠ "IOF".data := by decide
            exact fun he => hall (k, v) hk he
        | none =>
            show (if (containsSub "EUR".data (pyUpper desc) ||
                containsSub "USD".data (pyUpper desc) ||
                containsSub "FX".data (pyUpper desc)) = true
              then "FX".data else "DIVERSOS".data) ≠ "IOF".data
            split
            · decide
            · decide

lemma build_valor (card date desc : List Char) (valor : PVal) (cat : List Char)
    (ry rm : Nat) (kv : KV) : (build card date desc valor cat ry rm kv).valor_brl = valor := rfl

lemma build_cat (card date desc : List Char) (valor : PVal) (cat : List Char)
    (ry rm : Nat) (kv : KV) :
    (build card date desc valor cat ry rm kv).categoria_high = PVal.str cat := rfl

lemma build_desc (card date desc : List Char) (valor : PVal) (cat : List Char)
    (ry rm : Nat) (kv : KV) :
    (build card date desc valor cat ry rm kv).desc_raw = PVal.str desc := rfl

lemma build_fields (card date desc : List Char) (valor : PVal) (cat : List Char)
    (ry rm : Nat) (kv : KV) :
    (build card date desc valor cat ry rm kv).valor_orig = (kv.valor_orig).getD (.str []) ∧
    (build card date desc valor cat ry rm kv).valor_usd = (kv.valor_usd).getD (.str []) ∧
    (build card date desc valor cat ry rm kv).fx_rate = (kv.fx_rate).getD (.str []) ∧
    (build card date desc valor cat ry rm kv).iof_brl = (kv.iof_brl).getD (.str []) :=
  ⟨rfl, rfl, rfl, rfl⟩

lemma fxStep_inv {lines : List (List Char)} {ry rm i : Nat} {s s' : StCore} {b : Bool}
    (h : fxStep lines ry rm i s = .ok (s', b)) (hp : StInv s) : StInv s' := by
  unfold fxStep at h
  cases hd : fxData lines i with
  | error e => rw [hd] at h; cases h
  | ok d =>
      rw [hd] at h
      dsimp only at h
      by_cases hk : keyMem (fxKeyOf d) s.seenFx = true
      · rw [if_pos hk] at h
        injection h with h1
        injection h1 with h1 _
        subst h1
        exact hp
      · rw [if_neg hk] at h
        injection h with h1
        injection h1 with h1 _
        subst h1
        refine ⟨fun r hr => ?_, hp.2⟩
        rcases List.mem_append.mp hr with hr | hr
        · exact hp.1 r hr
        · rcases List.mem_cons.mp hr with hr | hr
          · subst hr
            refine ⟨⟨Or.inl ⟨d.valorBrl, rfl⟩, Or.inl ⟨d.valorOrig, rfl⟩,
              Or.inl ⟨d.valorUsd, rfl⟩, Or.inl ⟨d.fxRate, rfl⟩, Or.inr rfl⟩, ?_⟩
            · intro he
              rw [show (fxBuild s.card d ry rm).categoria_high = PVal.str "FX".data
                from rfl] at he
              injection he with he
              exact absurd he (by decide)
          · cases hr

lemma payStep_inv {ry rm : Nat} {dateTok amtTok : List Char} {s s' : StCore} {b : Bool}
    (h : payStep ry rm dateTok amtTok s = .ok (s', b)) (hp : StInv s) : StInv s' := by
  unfold payStep at h
  cases hd : decomma amtTok with
  | error e => rw [hd] at h; cases h
  | ok v =>
      rw [hd] at h
      dsimp only at h
      by_cases hge : Dec.le ⟨0, 0⟩ v = true
      · rw [if_pos hge] at h
        injection h with h1
        injection h1 with h1 _
        subst h1
        exact hp
      · rw [if_neg hge] at h
        injection h with h1
        injection h1 with h1 _
        subst h1
        refine ⟨fun r hr => ?_, hp.2⟩
        rcases List.mem_append.mp hr with hr | hr
        · exact hp.1 r hr
        · rcases List.mem_cons.mp hr with hr | hr
          · subst hr
            refine ⟨⟨Or.inr ⟨⟨v, rfl⟩, rfl, rfl⟩, Or.inr rfl, Or.inr rfl,
              Or.inr rfl, Or.inr rfl⟩, ?_⟩
            · intro he
              rw [build_cat] at he
              injection he with he
              exact absurd he (by decide)
          · cases hr

lemma domStep_inv {ry rm : Nat} {dateTok desc amtTok : List Char} {s s' : StCore} {b : Bool}
    (h : domStep ry rm dateTok desc amtTok s = .ok (s', b)) (hp : StInv s) : StInv s' := by
  unfold domStep at h
  cases hd : decomma amtTok with
  | error e => rw [hd] at h; cases h
  | ok amt =>
      rw [hd] at h
      dsimp only at h
      by_cases hrej : (match (domInst desc).2, (domInst desc).1 with
        | some t, some q => t != 0 && q != 0 && t < q
        | _, _ => false) = true
      · rw [if_pos hrej] at h
        injection h with h1
        injection h1 with h1 _
        subst h1
        exact hp
      · rw [if_neg hrej] at h
        injection h with h1
        injection h1 with h1 _
        subst h1
        refine ⟨fun r hr => ?_, hp.2⟩
        rcases List.mem_append.mp hr with hr | hr
        · exact hp.1 r hr
        · rcases List.mem_cons.mp hr with hr | hr
          · subst hr
            refine ⟨⟨Or.inl ⟨amt, rfl⟩, Or.inr rfl, Or.inr rfl, Or.inr rfl, Or.inr rfl⟩, ?_⟩
            · intro he
              rw [build_cat] at he
              injection he with he
              exact classify_ne_iof desc amt he
          · cases hr

lemma iofStep_inv {ry rm : Nat} {tok : List Char} {s s' : StCore} {b : Bool}
    (h : iofStep ry rm tok s = .ok (s', b)) (hp : StInv s) : StInv s' := by
  unfold iofStep at h
  cases hd : decomma tok with
  | error e => rw [hd] at h; cases h
  | ok v =>
      rw [hd] at h
      dsimp only at h
      injection h with h1
      injection h1 with h1 _
      subst h1
      refine ⟨hp.1, fun r hr => ?_⟩
      rcases List.mem_append.mp hr with hr | hr
      · exact hp.2 r hr
      · rcases List.mem_cons.mp hr with hr | hr
        · subst hr
          exact ⟨⟨Or.inl ⟨v, rfl⟩, Or.inr rfl, Or.inr rfl, Or.inr rfl,
            Or.inl ⟨v, rfl⟩⟩, rfl⟩
        · cases hr

lemma missStep_inv {s s' : StCore} {b : Bool}
    (h : missStep s = .ok (s', b)) (hp : StInv s) : StInv s' := by
  unfold missStep at h
  injection h with h1
  injection h1 with h1 _
  subst h1
  exact hp

lemma encStep_inv {ry rm : Nat} {line : List Char} {s s' : StCore} {b : Bool}
    (h : encStep ry rm line s = .ok (s', b)) (hp : StInv s) : StInv s' := by
  unfold encStep at h
  cases hb : searchBRL line with
  | none =>
      rw [hb] at h
      dsimp only at h
      exact missStep_inv h hp
  | some tok =>
      rw [hb] at h
      dsimp only at h
      cases hd : decomma tok with
      | error e => rw [hd] at h; cases h
      | ok v =>
          rw [hd] at h
          dsimp only at h
          by_cases hz : (!(v.eqv ⟨0, 0⟩)) = true
          · rw [if_pos hz] at h
            injection h with h1
            injection h1 with h1 _
            subst h1
            refine ⟨fun r hr => ?_, hp.2⟩
            rcases List.mem_append.mp hr with hr | hr
            · exact hp.1 r hr
            · rcases List.mem_cons.mp hr with hr | hr
              · subst hr
                refine ⟨⟨Or.inl ⟨v, rfl⟩, Or.inr rfl, Or.inr rfl, Or.inr rfl, Or.inr rfl⟩, ?_⟩
                · intro he
                  rw [build_cat] at he
                  injection he with he
                  exact absurd he (by decide)
              · cases hr
          · rw [if_neg hz] at h
            exact missStep_inv h hp

lemma stepAt_inv {lines : List (List Char)} {ry rm i : Nat} {s s' : StCore} {b : Bool}
    (h : stepAt lines ry rm i s = .ok (s', b)) (hp : StInv s) : StInv s' := by
  unfold stepAt at h
  by_cases hskip : (s.skip != 0) = true
  · rw [if_pos hskip] at h
    injection h with h1
    injection h1 with h1 _
    subst h1
    exact hp
  · rw [if_neg hskip] at h
    by_cases hfx : fxCond lines i = true
    · rw [if_pos hfx] at h
      exact fxStep_inv h hp
    · rw [if_neg hfx] at h
      cases hmp : matchPay (clean (lines.getD i [])) with
      | some p =>
          rw [hmp] at h
          exact payStep_inv h hp
      | none =>
          rw [hmp] at h
          by_cases hrd : (reDateMatch (clean (lines.getD i []))).isSome = true
          · rw [if_pos hrd] at h
            cases hmd : matchDom (clean (lines.getD i [])) with
            | some t =>
                rw [hmd] at h
                exact domStep_inv h hp
            | none =>
                rw [hmd] at h
                injection h with h1
                injection h1 with h1 _
                subst h1
                exact hp
          · rw [if_neg hrd] at h
            cases hio : searchIOF (clean (lines.getD i [])) with
            | some tok =>
                rw [hio] at h
                exact iofStep_inv h hp
            | none =>
                rw [hio] at h
                by_cases he : encKw (clean (lines.getD i [])) = true
                · rw [if_pos he] at h
                  exact encStep_inv h hp
                · rw [if_neg he] at h
                  exact missStep_inv h hp

lemma scanLoop_inv {lines : List (List Char)} {ry rm : Nat} :
    ∀ {fuel i : Nat} {s res : StCore},
      scanLoop lines ry rm fuel i s = .ok res → StInv s → StInv res := by
  intro fuel
  induction fuel with
  | zero =>
      intro i s res h hp
      injection h with h1
      subst h1
      exact hp
  | succ n ih =>
      intro i s res h hp
      rw [show scanLoop lines ry rm (n + 1) i s =
        (if i < lines.length then
          match stepAt lines ry rm i s with
          | .error e => .error e
          | .ok (s', fx3) => scanLoop lines ry rm n (i + if fx3 then 3 else 1) s'
        else .ok s) from rfl] at h
      by_cases hlt : i < lines.length
      · rw [if_pos hlt] at h
        cases hs : stepAt lines ry rm i s with
        | error e => rw [hs] at h; cases h
        | ok p =>
            rw [hs] at h
            exact ih h (stepAt_inv hs hp)
      · rw [if_neg hlt] at h
        injection h with h1
        subst h1
        exact hp

/-- A completed parse decomposes into the filtered scan rows followed
by the filtered IOF side postings, with the scan-state invariant
available for the final state. -/
lemma parse_split {lines : List (List Char)} {ry rm : Nat} {out : List Posting}
    {st : Counter} (h : parse_txt lines ry rm = .ok (out, st)) :
    ∃ s : StCore, scanLoop lines ry rm lines.length 0 (initSt lines) = .ok s ∧
      out = (s.rows).filter keepRow ++ (s.iofPostings).filter keepRow ∧ StInv s := by
  unfold parse_txt at h
  cases hs : scanLoop lines ry rm lines.length 0 (initSt lines) with
  | error e => rw [hs] at h; cases h
  | ok s =>
      rw [hs] at h
      injection h with h1
      injection h1 with h1 _
      refine ⟨s, rfl, ?_, ?_⟩
      · rw [← h1, List.filter_append]
      · refine scanLoop_inv hs ⟨?_, ?_⟩
        · intro r hr
          cases hr
        · intro r hr
          cases hr

lemma keepRow_spec {r : Posting} (h : keepRow r = true) :
    pvalTruthy r.post_date = true ∧ r.valor_brl ≠ PVal.str [] ∧ r.valor_brl ≠ PVal.none := by
  unfold keepRow at h
  rw [Bool.and_eq_true] at h
  obtain ⟨h1, h2⟩ := h
  refine ⟨h1, ?_, ?_⟩
  · intro he
    rw [he] at h2
    simp at h2
  · intro he
    rw [he] at h2
    simp at h2

/-- A one-payment-line statement file. -/
def payFile : List (List Char) := ["1/1 PAGAMENTO 7117 -1,00".data]

/-- The posting the scanner produces for `payFile`: note the
`float`-tagged amount. -/
def payPosting : Posting :=
  build "0000".data "1/1".data "PAGAMENTO".data (.flt ⟨-100, 2⟩) "PAGAMENTO".data
    2025 5 { pagamento_fatura_anterior := some (.str []) }

lemma payFile_rows : parsedRows (parse_txt payFile 2025 5) = some [payPosting] := rfl

/-- Does the field hold an exact `Decimal`? -/
def isDecPV : PVal → Bool
  | .dec _ => true
  | _ => false

/-- Does the field hold a `float`? -/
def isFltPV : PVal → Bool
  | .flt _ => true
  | _ => false

/-- C4: every posting returned by `parse_txt` has a truthy (non-empty)
normalized `post_date` and a `valor_brl` that is neither the empty
string nor `None` — the final filter enforces exactly this. -/
theorem c4_final_filter :
    ∀ (lines : List (List Char)) (ry rm : Nat) (out : List Posting) (st : Counter),
      parse_txt lines ry rm = .ok (out, st) →
      ∀ r ∈ out, pvalTruthy r.post_date = true ∧
        r.valor_brl ≠ PVal.str [] ∧ r.valor_brl ≠ PVal.none := by
  intro lines ry rm out st h r hr
  obtain ⟨s, _, hout, _⟩ := parse_split h
  rw [hout] at hr
  rcases List.mem_append.mp hr with hr | hr
  · exact keepRow_spec (List.mem_filter.mp hr).2
  · exact keepRow_spec (List.mem_filter.mp hr).2

/-- Witness for C4 at the one-payment-line file. -/
theorem c4_final_filter_witness :
    pvalTruthy payPosting.post_date = true ∧
    payPosting.valor_brl ≠ PVal.str [] ∧ payPosting.valor_brl ≠ PVal.none := by
  cases hp : parse_txt payFile 2025 5 with
  | error e =>
      have := payFile_rows
      rw [hp] at this
      cases this
  | ok p =>
      obtain ⟨out, st⟩ := p
      have hout : out = [payPosting] := by
        have := payFile_rows
        rw [hp] at this
        injection this
      exact c4_final_filter payFile 2025 5 out st hp payPosting
        (by rw [hout]; exact List.mem_cons_self _ _)

/-- C2: the payment branch stores `float(valor)` in `valor_brl`, so the
claim that floating point is never used for a posting's money fields is
false: the single posting of `payFile` carries a float amount. -/
theorem c2_counterexample :
    parsedRows (parse_txt payFile 2025 5) = some [payPosting] ∧
    isDecPV payPosting.valor_brl = false ∧ isFltPV payPosting.valor_brl = true := by
  refine ⟨payFile_rows, by rfl, by rfl⟩

/-- C2 (amended): every posting's `valor_orig`, `valor_usd`, `fx_rate`
and `iof_brl` hold exact decimals or the empty marker, and `valor_brl`
holds an exact decimal — except for postings produced by the payment
matcher (description and category `PAGAMENTO`), whose `valor_brl` is
converted to float before being stored. -/
theorem c2_money_amended :
    ∀ (lines : List (List Char)) (ry rm : Nat) (out : List Posting) (st : Counter),
      parse_txt lines ry rm = .ok (out, st) → ∀ r ∈ out, moneyProp r := by
  intro lines ry rm out st h r hr
  obtain ⟨s, _, hout, hinv⟩ := parse_split h
  rw [hout] at hr
  rcases List.mem_append.mp hr with hr | hr
  · exact (hinv.1 r (List.mem_filter.mp hr).1).1
  · exact (hinv.2 r (List.mem_filter.mp hr).1).1

/-- Witness for the amended C2 at the one-payment-line file. -/
theorem c2_money_amended_witness : moneyProp payPosting := by
  cases hp : parse_txt payFile 2025 5 with
  | error e =>
      have := payFile_rows
      rw [hp] at this
      cases this
  | ok p =>
      obtain ⟨out, st⟩ := p
      have hout : out = [payPosting] := by
        have := payFile_rows
        rw [hp] at this
        injection this
      exact c2_money_amended payFile 2025 5 out st hp payPosting
        (by rw [hout]; exact List.mem_cons_self _ _)

/-- A file with one domestic purchase, one 3-line FX block, and one IOF
remittance line. -/
def mixedFile : List (List Char) :=
  ["1/5 LOJA 10,00".data, "2/5 HOTEL XYZ 100,00".data, "PARIS 90,00 USD 95,00".data,
   "Dolar de Conversao R$ 5,25".data, "Repasse de IOF em R$ 5,00".data]

/-- C10: in the returned posting list, every IOF posting follows every
non-IOF posting: the list equals its non-IOF postings (in order)
followed by its IOF postings (in order), because IOF postings are
accumulated in the separate `iof_postings` list and appended only after
the scan. -/
theorem c10_iof_appended_last :
    ∀ (lines : List (List Char)) (ry rm : Nat) (out : List Posting) (st : Counter),
      parse_txt lines ry rm = .ok (out, st) →
      out = out.filter (fun r => !(r.categoria_high == PVal.str "IOF".data)) ++
        out.filter (fun r => r.categoria_high == PVal.str "IOF".data) := by
  intro lines ry rm out st h
  obtain ⟨s, _, hout, hinv⟩ := parse_split h
  have hA : ∀ r ∈ (s.rows).filter keepRow,
      (!(r.categoria_high == PVal.str "IOF".data)) = true := by
    intro r hr
    have := (hinv.1 r (List.mem_filter.mp hr).1).2
    simp only [Bool.not_eq_true', beq_eq_false_iff_ne, ne_eq]
    exact this
  have hB : ∀ r ∈ (s.iofPostings).filter keepRow,
      (r.categoria_high == PVal.str "IOF".data) = true := by
    intro r hr
    have := (hinv.2 r (List.mem_filter.mp hr).1).2
    exact beq_iff_eq.mpr this
  have e1 : ((s.rows).filter keepRow).filter
      (fun r => !(r.categoria_high == PVal.str "IOF".data)) = (s.rows).filter keepRow :=
    List.filter_eq_self.mpr hA
  have e2 : ((s.iofPostings).filter keepRow).filter
      (fun r => !(r.categoria_high == PVal.str "IOF".data)) = [] :=
    List.filter_eq_nil_iff.mpr (fun r hr => by simp [hB r hr])
  have e3 : ((s.rows).filter keepRow).filter
      (fun r => r.categoria_high == PVal.str "IOF".data) = [] :=
    List.filter_eq_nil_iff.mpr (fun r hr => by
      have := hA r hr
      simp only [Bool.not_eq_true'] at this
      simp [this])
  have e4 : ((s.iofPostings).filter keepRow).filter
      (fun r => r.categoria_high == PVal.str "IOF".data) =
        (s.iofPostings).filter keepRow :=
    List.filter_eq_self.mpr hB
  rw [hout, List.filter_append, List.filter_append, e1, e2, e3, e4]
  simp

/-- Witness for C10 at `mixedFile` (domestic, FX, then IOF). -/
theorem c10_iof_appended_last_witness :
    (parsedRows (parse_txt mixedFile 2025 5)).getD [] =
      ((parsedRows (parse_txt mixedFile 2025 5)).getD []).filter
        (fun r => !(r.categoria_high == PVal.str "IOF".data)) ++
      ((parsedRows (parse_txt mixedFile 2025 5)).getD []).filter
        (fun r => r.categoria_high == PVal.str "IOF".data) := by
  cases hp : parse_txt mixedFile 2025 5 with
  | error e =>
      simp [parsedRows, hp]
  | ok p =>
      obtain ⟨out, st⟩ := p
      have := c10_iof_appended_last mixedFile 2025 5 out st hp
      simp only [parsedRows, hp, Option.getD_some]
      exact this

/-- A line on which every matcher fails, so the scanner counts a miss:
no leading date, no payment match, no IOF phrase, no interest/fee
keyword. -/
def missLine (l : List Char) : Bool :=
  (!(reDateMatch (clean l)).isSome) && (matchPay (clean l)).isNone &&
  (searchIOF (clean l)).isNone && (!encKw (clean l))

lemma counter_bump_self (c : Counter) (k : List Char) : (c.bump k) k = c k + 1 := by
  unfold Counter.bump
  simp

lemma counter_bump_ne (c : Counter) {k k' : List Char} (h : k' ≠ k) :
    (c.bump k) k' = c k' := by
  unfold Counter.bump
  simp [h]

lemma counter_set_ne (c : Counter) {k k' : List Char} (n : Nat) (h : k' ≠ k) :
    (c.set k n) k' = c k' := by
  unfold Counter.set
  simp [h]

lemma stepAt_miss {lines : List (List Char)} {ry rm i : Nat} {s : StCore}
    (hskip : s.skip = 0) (hm : missLine (lines.getD i []) = true) :
    stepAt lines ry rm i s = .ok ({ s with stats := s.stats.bump "regex_miss".data }, false) := by
  unfold missLine at hm
  rw [Bool.and_eq_true, Bool.and_eq_true, Bool.and_eq_true] at hm
  obtain ⟨⟨⟨h1, h2⟩, h3⟩, h4⟩ := hm
  have hd : (reDateMatch (clean (lines.getD i []))).isSome = false := by
    simpa using h1
  have hp : matchPay (clean (lines.getD i [])) = Option.none :=
    Option.isNone_iff_eq_none.mp h2
  have hio : searchIOF (clean (lines.getD i [])) = Option.none :=
    Option.isNone_iff_eq_none.mp h3
  have he : encKw (clean (lines.getD i [])) = false := by
    simpa using h4
  have hfx : fxCond lines i = false := by
    unfold fxCond
    rw [hd]
    rfl
  unfold stepAt
  rw [if_neg (by simp [hskip])]
  rw [if_neg (by simp [hfx])]
  rw [hp]
  rw [if_neg (fun hc => by rw [hd] at hc; cases hc)]
  rw [hio]
  rw [if_neg (fun hc => by rw [he] at hc; cases hc)]
  rfl

lemma scan_all_miss {lines : List (List Char)} {ry rm : Nat}
    (hall : ∀ l ∈ lines, missLine l = true) :
    ∀ (fuel i : Nat) (s : StCore), s.skip = 0 → lines.length - i ≤ fuel →
      ∃ st' : StCore, scanLoop lines ry rm fuel i s = .ok st' ∧
        st'.rows = s.rows ∧ st'.iofPostings = s.iofPostings ∧
        st'.stats "regex_miss".data = s.stats "regex_miss".data + (lines.length - i) := by
  intro fuel
  induction fuel with
  | zero =>
      intro i s hskip hfuel
      refine ⟨s, rfl, rfl, rfl, ?_⟩
      omega
  | succ n ih =>
      intro i s hskip hfuel
      by_cases hlt : i < lines.length
      · have hmem : lines.getD i [] ∈ lines := by
          rw [List.getD_eq_getElem lines [] hlt]
          exact List.getElem_mem hlt
        have hstep := @stepAt_miss lines ry rm i s hskip (hall _ hmem)
        rw [show scanLoop lines ry rm (n + 1) i s =
          (if i < lines.length then
            match stepAt lines ry rm i s with
            | .error e => .error e
            | .ok (s', fx3) => scanLoop lines ry rm n (i + if fx3 then 3 else 1) s'
          else .ok s) from rfl, if_pos hlt, hstep]
        obtain ⟨st', hrun, hrows, hiof, hstat⟩ :=
          ih (i + 1) { s with stats := s.stats.bump "regex_miss".data } hskip (by omega)
        refine ⟨st', hrun, hrows, hiof, ?_⟩
        rw [hstat]
        have : ({ s with stats := s.stats.bump "regex_miss".data } : StCore).stats
            "regex_miss".data = s.stats "regex_miss".data + 1 := by
          show (s.stats.bump "regex_miss".data) "regex_miss".data = _
          exact counter_bump_self _ _
        rw [this]
        omega
      · rw [show scanLoop lines ry rm (n + 1) i s =
          (if i < lines.length then
            match stepAt lines ry rm i s with
            | .error e => .error e
            | .ok (s', fx3) => scanLoop lines ry rm n (i + if fx3 then 3 else 1) s'
          else .ok s) from rfl, if_neg hlt]
        refine ⟨s, rfl, rfl, rfl, ?_⟩
        omega

/-- C1: the scan is not exception-free: on the line
`"1/1 PAGAMENTO ,"` the broad payment pattern captures the amount
token `","`, whose cleaned form has no digits, and the uncaught
`decimal.InvalidOperation` aborts the scan. -/
theorem c1_counterexample :
    parse_txt ["1/1 PAGAMENTO ,".data] 2025 5 = .error () := by
  rfl

/-- C1 (amended): no unrecognized line ever aborts the scan — a file
in which every line matches no pattern parses to completion with zero
postings and one counted miss per line; but a line whose matched amount
sub-token fails decimal parsing raises an exception that aborts the
scan (e.g. `"1/1 PAGAMENTO ,"`). -/
theorem c1_miss_amended :
    ∀ (lines : List (List Char)) (ry rm : Nat),
      (∀ l ∈ lines, missLine l = true) →
      parsedRows (parse_txt lines ry rm) = some [] ∧
      parsedStat "regex_miss".data (parse_txt lines ry rm) = some lines.length := by
  intro lines ry rm hall
  obtain ⟨st', hrun, hrows, hiof, hstat⟩ :=
    scan_all_miss hall lines.length 0 (initSt lines) rfl (by omega)
  unfold parse_txt
  rw [hrun]
  dsimp only
  constructor
  · unfold parsedRows
    rw [hrows, hiof]
    rfl
  · unfold parsedStat
    dsimp only
    simp only [Counter.set]
    rw [if_neg (by decide)]
    rw [hstat]
    have h0 : (initSt lines).stats "regex_miss".data = 0 := by
      show (Counter.zero.set "lines".data lines.length) "regex_miss".data = 0
      simp only [Counter.set]
      rw [if_neg (by decide)]
      rfl
    rw [h0]
    simp

/-- Witness for the amended C1 at a two-line file of unmatched lines. -/
theorem c1_miss_amended_witness :
    parsedRows (parse_txt ["abc".data, "x y z".data] 2025 5) = some [] ∧
    parsedStat "regex_miss".data (parse_txt ["abc".data, "x y z".data] 2025 5) = some 2 :=
  c1_miss_amended ["abc".data, "x y z".data] 2025 5 (by decide)

/-- A statement file holding exactly one 3-line FX block. -/
def fx3File : List (List Char) :=
  ["2/5 HOTEL XYZ 100,00".data, "PARIS 90,00 USD 95,00".data,
   "Dolar de Conversao R$ 5,25".data]

/-- The fields the scanner extracts from the `fx3File` block (the same
block sits at cursor 1 of `mixedFile`). -/
def fxD : FxRec :=
  { postDate := "2/5".data, desc := "HOTEL XYZ".data, city := "PARIS".data,
    moeda := "USD".data, valorBrl := ⟨10000, 2⟩, valorOrig := ⟨9000, 2⟩,
    valorUsd := ⟨9500, 2⟩, fxRate := ⟨525, 2⟩ }

/-- The state after the `fx3File` block has been seen once. -/
def dupSt : StCore := { initSt fx3File with seenFx := [fxKeyOf fxD] }

lemma keyMem_append (k k' : FxKey) (seen : List FxKey) :
    keyMem k (seen ++ [k']) = (keyMem k seen || keyEq k k') := by
  unfold keyMem
  rw [List.any_append]
  simp

lemma fxStep_seenFx {lines : List (List Char)} {ry rm i : Nat} {s s' : StCore} {b : Bool}
    (h : fxStep lines ry rm i s = .ok (s', b)) :
    s'.seenFx = s.seenFx ∨ ∃ k : FxKey, s'.seenFx = s.seenFx ++ [k] := by
  unfold fxStep at h
  cases hd : fxData lines i with
  | error e => rw [hd] at h; cases h
  | ok d =>
      rw [hd] at h
      dsimp only at h
      by_cases hk : keyMem (fxKeyOf d) s.seenFx = true
      · rw [if_pos hk] at h
        injection h with h1
        injection h1 with h1 _
        subst h1
        exact Or.inl rfl
      · rw [if_neg hk] at h
        injection h with h1
        injection h1 with h1 _
        subst h1
        exact Or.inr ⟨fxKeyOf d, rfl⟩

lemma payStep_seenFx {ry rm : Nat} {dateTok amtTok : List Char} {s s' : StCore} {b : Bool}
    (h : payStep ry rm dateTok amtTok s = .ok (s', b)) : s'.seenFx = s.seenFx := by
  unfold payStep at h
  cases hd : decomma amtTok with
  | error e => rw [hd] at h; cases h
  | ok v =>
      rw [hd] at h
      dsimp only at h
      by_cases hge : Dec.le ⟨0, 0⟩ v = true
      · rw [if_pos hge] at h
        injection h with h1
        injection h1 with h1 _
        subst h1
        rfl
      · rw [if_neg hge] at h
        injection h with h1
        injection h1 with h1 _
        subst h1
        rfl

lemma domStep_seenFx {ry rm : Nat} {dateTok desc amtTok : List Char} {s s' : StCore} {b : Bool}
    (h : domStep ry rm dateTok desc amtTok s = .ok (s', b)) : s'.seenFx = s.seenFx := by
  unfold domStep at h
  cases hd : decomma amtTok with
  | error e => rw [hd] at h; cases h
  | ok amt =>
      rw [hd] at h
      dsimp only at h
      by_cases hrej : (match (domInst desc).2, (domInst desc).1 with
        | some t, some q => t != 0 && q != 0 && t < q
        | _, _ => false) = true
      · rw [if_pos hrej] at h
        injection h with h1
        injection h1 with h1 _
        subst h1
        rfl
      · rw [if_neg hrej] at h
        injection h with h1
        injection h1 with h1 _
        subst h1
        rfl

lemma iofStep_seenFx {ry rm : Nat} {tok : List Char} {s s' : StCore} {b : Bool}
    (h : iofStep ry rm tok s = .ok (s', b)) : s'.seenFx = s.seenFx := by
  unfold iofStep at h
  cases hd : decomma tok with
  | error e => rw [hd] at h; cases h
  | ok v =>
      rw [hd] at h
      dsimp only at h
      injection h with h1
      injection h1 with h1 _
      subst h1
      rfl

lemma missStep_seenFx {s s' : StCore} {b : Bool}
    (h : missStep s = .ok (s', b)) : s'.seenFx = s.seenFx := by
  unfold missStep at h
  injection h with h1
  injection h1 with h1 _
  subst h1
  rfl

lemma encStep_seenFx {ry rm : Nat} {line : List Char} {s s' : StCore} {b : Bool}
    (h : encStep ry rm line s = .ok (s', b)) : s'.seenFx = s.seenFx := by
  unfold encStep at h
  cases hb : searchBRL line with
  | none =>
      rw [hb] at h
      dsimp only at h
      exact missStep_seenFx h
  | some tok =>
      rw [hb] at h
      dsimp only at h
      cases hd : decomma tok with
      | error e => rw [hd] at h; cases h
      | ok v =>
          rw [hd] at h
          dsimp only at h
          by_cases hz : (!(v.eqv ⟨0, 0⟩)) = true
          · rw [if_pos hz] at h
            injection h with h1
            injection h1 with h1 _
            subst h1
            rfl
          · rw [if_neg hz] at h
            exact missStep_seenFx h

/-- A scanner step either leaves the FX dedup set alone or appends one
key to it — keys are never removed. -/
lemma stepAt_seenFx {lines : List (List Char)} {ry rm i : Nat} {s s' : StCore} {b : Bool}
    (h : stepAt lines ry rm i s = .ok (s', b)) :
    s'.seenFx = s.seenFx ∨ ∃ k : FxKey, s'.seenFx = s.seenFx ++ [k] := by
  unfold stepAt at h
  by_cases hskip : (s.skip != 0) = true
  · rw [if_pos hskip] at h
    injection h with h1
    injection h1 with h1 _
    subst h1
    exact Or.inl rfl
  · rw [if_neg hskip] at h
    by_cases hfx : fxCond lines i = true
    · rw [if_pos hfx] at h
      exact fxStep_seenFx h
    · rw [if_neg hfx] at h
      cases hmp : matchPay (clean (lines.getD i [])) with
      | some p =>
          rw [hmp] at h
          exact Or.inl (payStep_seenFx h)
      | none =>
          rw [hmp] at h
          by_cases hrd : (reDateMatch (clean (lines.getD i []))).isSome = true
          · rw [if_pos hrd] at h
            cases hmd : matchDom (clean (lines.getD i [])) with
            | some t =>
                rw [hmd] at h
                exact Or.inl (domStep_seenFx h)
            | none =>
                rw [hmd] at h
                injection h with h1
                injection h1 with h1 _
                subst h1
                exact Or.inl rfl
          · rw [if_neg hrd] at h
            cases hio : searchIOF (clean (lines.getD i [])) with
            | some tok =>
                rw [hio] at h
                exact Or.inl (iofStep_seenFx h)
            | none =>
                rw [hio] at h
                by_cases he : encKw (clean (lines.getD i [])) = true
                · rw [if_pos he] at h
                  exact Or.inl (encStep_seenFx h)
                · rw [if_neg he] at h
                  exact Or.inl (missStep_seenFx h)

/-- C5: at a cursor where three contiguous lines form a valid FX block,
the scanner appends exactly one FX posting, remembers the block's
composite key, and the cursor advances by 3 (the step reports an FX
consume and the loop continues at `i + 3`); when the block's key was
already seen, no posting is appended and the duplicate is logged; the
FX guard and field extraction depend only on the three lines, so a
byte-identical repeat of the block extracts the same key; and seen keys
persist through the rest of the scan, so such a repeat always takes the
duplicate branch. -/
theorem c5_fx_block :
    (∀ (lines : List (List Char)) (ry rm i : Nat) (s : StCore) (d : FxRec),
      s.skip = 0 → fxCond lines i = true → fxData lines i = .ok d →
      keyMem (fxKeyOf d) s.seenFx = false →
      stepAt lines ry rm i s = .ok ({ s with
        rows := s.rows ++ [fxBuild s.card d ry rm],
        seenFx := s.seenFx ++ [fxKeyOf d],
        stats := s.stats.bump "fx".data }, true)) ∧
    (∀ (lines : List (List Char)) (ry rm i : Nat) (s : StCore) (d : FxRec),
      s.skip = 0 → fxCond lines i = true → fxData lines i = .ok d →
      keyMem (fxKeyOf d) s.seenFx = true →
      stepAt lines ry rm i s =
        .ok ({ s with dupLog := s.dupLog ++ [fxKeyOf d] }, true)) ∧
    (∀ (lines : List (List Char)) (ry rm fuel i : Nat) (s s2 : StCore),
      i < lines.length → stepAt lines ry rm i s = .ok (s2, true) →
      scanLoop lines ry rm (fuel + 1) i s = scanLoop lines ry rm fuel (i + 3) s2) ∧
    (∀ (lines : List (List Char)) (i j : Nat),
      i + 2 < lines.length → j + 2 < lines.length →
      lines.getD i [] = lines.getD j [] →
      lines.getD (i + 1) [] = lines.getD (j + 1) [] →
      lines.getD (i + 2) [] = lines.getD (j + 2) [] →
      fxCond lines i = fxCond lines j ∧ fxData lines i = fxData lines j) ∧
    (∀ (lines : List (List Char)) (ry rm fuel i : Nat) (s res : StCore) (k : FxKey),
      scanLoop lines ry rm fuel i s = .ok res → keyMem k s.seenFx = true →
      keyMem k res.seenFx = true) := by
  refine ⟨?_, ?_, ?_, ?_, ?_⟩
  · intro lines ry rm i s d hskip hfx hd hk
    unfold stepAt
    rw [if_neg (by simp [hskip])]
    rw [if_pos hfx]
    unfold fxStep
    rw [hd]
    dsimp only
    rw [if_neg (fun hc => by rw [hk] at hc; cases hc)]
  · intro lines ry rm i s d hskip hfx hd hk
    unfold stepAt
    rw [if_neg (by simp [hskip])]
    rw [if_pos hfx]
    unfold fxStep
    rw [hd]
    dsimp only
    rw [if_pos hk]
  · intro lines ry rm fuel i s s2 hlt hstep
    rw [show scanLoop lines ry rm (fuel + 1) i s =
      (if i < lines.length then
        match stepAt lines ry rm i s with
        | .error e => .error e
        | .ok (t, fx3) => scanLoop lines ry rm fuel (i + if fx3 then 3 else 1) t
      else .ok s) from rfl, if_pos hlt, hstep]
    rfl
  · intro lines i j hi hj e0 e1 e2
    constructor
    · unfold fxCond
      rw [e0, e1, e2,
        show (decide (i + 2 < lines.length)) = true from decide_eq_true hi,
        show (decide (j + 2 < lines.length)) = true from decide_eq_true hj]
    · unfold fxData
      rw [e0, e1, e2]
  · intro lines ry rm fuel
    induction fuel with
    | zero =>
        intro i s res k h hk
        injection h with h1
        subst h1
        exact hk
    | succ n ih =>
        intro i s res k h hk
        rw [show scanLoop lines ry rm (n + 1) i s =
          (if i < lines.length then
            match stepAt lines ry rm i s with
            | .error e => .error e
            | .ok (t, fx3) => scanLoop lines ry rm n (i + if fx3 then 3 else 1) t
          else .ok s) from rfl] at h
        by_cases hlt : i < lines.length
        · rw [if_pos hlt] at h
          cases hs : stepAt lines ry rm i s with
          | error e => rw [hs] at h; cases h
          | ok p =>
              rw [hs] at h
              obtain ⟨s2, b⟩ := p
              rcases stepAt_seenFx hs with he | ⟨k2, he⟩
              · exact ih _ _ _ _ h (by rw [he]; exact hk)
              · exact ih _ _ _ _ h (by rw [he, keyMem_append, hk]; rfl)
        · rw [if_neg hlt] at h
          injection h with h1
          subst h1
          exact hk

/-- Witness for C5: the step on the concrete FX block of `fx3File`,
once on the fresh initial state (posting appended, key remembered) and
once on a state that already holds the key (duplicate logged, no
posting). -/
theorem c5_fx_block_witness :
    stepAt fx3File 2025 5 0 (initSt fx3File) = .ok ({ initSt fx3File with
      rows := (initSt fx3File).rows ++ [fxBuild (initSt fx3File).card fxD 2025 5],
      seenFx := (initSt fx3File).seenFx ++ [fxKeyOf fxD],
      stats := (initSt fx3File).stats.bump "fx".data }, true) ∧
    stepAt fx3File 2025 5 0 dupSt =
      .ok ({ dupSt with dupLog := dupSt.dupLog ++ [fxKeyOf fxD] }, true) :=
  ⟨c5_fx_block.1 fx3File 2025 5 0 (initSt fx3File) fxD rfl rfl rfl rfl,
   c5_fx_block.2.1 fx3File 2025 5 0 dupSt fxD rfl rfl rfl rfl⟩

/-- The domestic posting of `mixedFile` (date token `1/5`,
classified `VESTUÁRIO` by the `loja` keyword). -/
def domPosting : Posting :=
  build "0000".data "1/5".data "LOJA".data (.dec ⟨1000, 2⟩)
    (classify "LOJA".data ⟨1000, 2⟩) 2025 5
    { installment_seq := some PVal.none, installment_tot := some PVal.none }

/-- The FX posting of `mixedFile` (date token `2/5`). -/
def fxPosting : Posting := fxBuild "0000".data fxD 2025 5

/-- The IOF posting of `mixedFile`: dated by the carried `last_date`,
which still holds the domestic line's token `1/5`. -/
def iofPosting : Posting :=
  build "0000".data "1/5".data "Repasse de IOF em R$".data (.dec ⟨500, 2⟩)
    "IOF".data 2025 5 { iof_brl := some (.dec ⟨500, 2⟩) }

/-- C6: refuted as stated.  Scanning `mixedFile` emits the domestic
posting (dated 2025-05-01), then the FX posting (dated 2025-05-02),
then the IOF posting — but the IOF posting is dated 2025-05-01, the
date of the most recent *domestic* posting, not the date of the most
recent domestic-or-FX posting: the FX branch never updates
`last_date`. -/
theorem c6_counterexample :
    parsedRows (parse_txt mixedFile 2025 5) = some [domPosting, fxPosting, iofPosting] ∧
    fxPosting.post_date = PVal.str "2025-05-02".data ∧
    iofPosting.post_date = PVal.str "2025-05-01".data ∧
    iofPosting.post_date ≠ fxPosting.post_date :=
  ⟨rfl, rfl, rfl, by decide⟩

/-- A one-IOF-line file and a state carrying `last_date = "1/5"`. -/
def iofFile : List (List Char) := ["Repasse de IOF em R$ 5,00".data]

def iofSt : StCore := { initSt iofFile with lastDate := some "1/5".data }

/-- C6 (amended): a recognized IOF remittance line produces exactly one
IOF-tagged posting, dated to the carried `last_date` (empty when no
earlier line set it) and accumulated in the side list `iof_postings`;
`last_date` is set by the payment and domestic branches to their own
matched date token whenever they change the state, while the FX branch
never changes it — so the IOF posting's date follows the most recent
payment-or-domestic line, not the most recent FX posting. -/
theorem c6_iof_lastdate_amended :
    (∀ (lines : List (List Char)) (ry rm i : Nat) (s : StCore) (tok : List Char) (v : Dec),
      s.skip = 0 → fxCond lines i = false →
      matchPay (clean (lines.getD i [])) = Option.none →
      (reDateMatch (clean (lines.getD i []))).isSome = false →
      searchIOF (clean (lines.getD i [])) = some tok →
      decomma tok = .ok v →
      stepAt lines ry rm i s = .ok ({ s with
        iofPostings := s.iofPostings ++
          [build s.card ((s.lastDate).getD []) "Repasse de IOF em R$".data
            (.dec v) "IOF".data ry rm { iof_brl := some (.dec v) }],
        stats := s.stats.bump "iof".data }, false)) ∧
    (∀ (ry rm : Nat) (dateTok amtTok : List Char) (s s2 : StCore) (b : Bool),
      payStep ry rm dateTok amtTok s = .ok (s2, b) →
      s2 = s ∨ s2.lastDate = some dateTok) ∧
    (∀ (ry rm : Nat) (dateTok desc amtTok : List Char) (s s2 : StCore) (b : Bool),
      domStep ry rm dateTok desc amtTok s = .ok (s2, b) →
      s2 = s ∨ s2.lastDate = some dateTok) ∧
    (∀ (lines : List (List Char)) (ry rm i : Nat) (s s2 : StCore) (b : Bool),
      fxStep lines ry rm i s = .ok (s2, b) → s2.lastDate = s.lastDate) := by
  refine ⟨?_, ?_, ?_, ?_⟩
  · intro lines ry rm i s tok v hskip hfx hmp hrd hio hdec
    unfold stepAt
    rw [if_neg (by simp [hskip])]
    rw [if_neg (by simp [hfx])]
    rw [hmp]
    rw [if_neg (fun hc => by rw [hrd] at hc; cases hc)]
    rw [hio]
    unfold iofStep
    dsimp only
    rw [hdec]
  · intro ry rm dateTok amtTok s s2 b h
    unfold payStep at h
    cases hd : decomma amtTok with
    | error e => rw [hd] at h; cases h
    | ok v =>
        rw [hd] at h
        dsimp only at h
        by_cases hge : Dec.le ⟨0, 0⟩ v = true
        · rw [if_pos hge] at h
          injection h with h1
          injection h1 with h1 _
          subst h1
          exact Or.inl rfl
        · rw [if_neg hge] at h
          injection h with h1
          injection h1 with h1 _
          subst h1
          exact Or.inr rfl
  · intro ry rm dateTok desc amtTok s s2 b h
    unfold domStep at h
    cases hd : decomma amtTok with
    | error e => rw [hd] at h; cases h
    | ok amt =>
        rw [hd] at h
        dsimp only at h
        by_cases hrej : (match (domInst desc).2, (domInst desc).1 with
          | some t, some q => t != 0 && q != 0 && t < q
          | _, _ => false) = true
        · rw [if_pos hrej] at h
          injection h with h1
          injection h1 with h1 _
          subst h1
          exact Or.inl rfl
        · rw [if_neg hrej] at h
          injection h with h1
          injection h1 with h1 _
          subst h1
          exact Or.inr rfl
  · intro lines ry rm i s s2 b h
    unfold fxStep at h
    cases hd : fxData lines i with
    | error e => rw [hd] at h; cases h
    | ok d =>
        rw [hd] at h
        dsimp only at h
        by_cases hk : keyMem (fxKeyOf d) s.seenFx = true
        · rw [if_pos hk] at h
          injection h with h1
          injection h1 with h1 _
          subst h1
          rfl
        · rw [if_neg hk] at h
          injection h with h1
          injection h1 with h1 _
          subst h1
          rfl

/-- Witness for the amended C6: the IOF step on the concrete one-line
file `iofFile` with a carried `last_date`. -/
theorem c6_iof_lastdate_amended_witness :
    stepAt iofFile 2025 5 0 iofSt = .ok ({ iofSt with
      iofPostings := iofSt.iofPostings ++
        [build iofSt.card ((iofSt.lastDate).getD []) "Repasse de IOF em R$".data
          (.dec ⟨500, 2⟩) "IOF".data 2025 5 { iof_brl := some (.dec ⟨500, 2⟩) }],
      stats := iofSt.stats.bump "iof".data }, false) :=
  c6_iof_lastdate_amended.1 iofFile 2025 5 0 iofSt "5,00".data ⟨500, 2⟩
    rfl rfl rfl rfl rfl rfl

end TxtCsv
